import Mathlib

/-!
Shallow embedding of the core logic of `basketball_calendar`
(`src/create_calendar.py` and `src/extract_necessary_data.py`):

* the text-normalization pipeline `normalize` (abbreviation expansion with
  regex word boundaries, the two special-case substitutions, NFD accent
  stripping, lowercasing, removal of parenthesized substrings, punctuation
  removal, whitespace collapsing);
* the token-overlap similarity `overlap_score` (scores are modelled as exact
  rationals; for the tiny denominators arising here Python's float
  comparisons agree with the exact rational comparisons);
* the fuzzy resolver `find_address_for_terrain`;
* the date parsing `parse_datetime` (CPython `strptime` semantics for the
  five formats used) and the per-record calendar-event construction of
  `create_calendar`;
* the HTML table extraction loop of `load_html` in
  `extract_necessary_data.py`, over an abstract row model (a parsed row is
  a list of cells carrying visible text and first link, plus the list of
  embedded `<input>` controls).

Unicode data (NFD decompositions, lowercase mappings, the `\w`/`\s`
character classes of Python's `re` module) is modelled by explicit tables
covering ASCII and Latin-1, the character range exercised by this program.
-/

namespace BBCal

/-- Combining-mark test: the combining diacritical marks block U+0300..U+036F,
which contains every mark produced by the decomposition table below
(`unicodedata.category(c) == 'Mn'` for these characters). -/
def isMn (c : Char) : Bool := 0x300 ≤ c.toNat && c.toNat ≤ 0x36F

/-- NFD decompositions (`unicodedata.normalize('NFD', ...)`) for the
precomposed Latin-1 letters; characters outside the table decompose to
themselves. -/
def decompTable : List (Char × List Char) :=
  [('À', ['A', '̀']), ('Á', ['A', '́']), ('Â', ['A', '̂']),
   ('Ã', ['A', '̃']), ('Ä', ['A', '̈']), ('Å', ['A', '̊']),
   ('Ç', ['C', '̧']),
   ('È', ['E', '̀']), ('É', ['E', '́']), ('Ê', ['E', '̂']),
   ('Ë', ['E', '̈']),
   ('Ì', ['I', '̀']), ('Í', ['I', '́']), ('Î', ['I', '̂']),
   ('Ï', ['I', '̈']),
   ('Ñ', ['N', '̃']),
   ('Ò', ['O', '̀']), ('Ó', ['O', '́']), ('Ô', ['O', '̂']),
   ('Õ', ['O', '̃']), ('Ö', ['O', '̈']),
   ('Ù', ['U', '̀']), ('Ú', ['U', '́']), ('Û', ['U', '̂']),
   ('Ü', ['U', '̈']),
   ('Ý', ['Y', '́']),
   ('à', ['a', '̀']), ('á', ['a', '́']), ('â', ['a', '̂']),
   ('ã', ['a', '̃']), ('ä', ['a', '̈']), ('å', ['a', '̊']),
   ('ç', ['c', '̧']),
   ('è', ['e', '̀']), ('é', ['e', '́']), ('ê', ['e', '̂']),
   ('ë', ['e', '̈']),
   ('ì', ['i', '̀']), ('í', ['i', '́']), ('î', ['i', '̂']),
   ('ï', ['i', '̈']),
   ('ñ', ['n', '̃']),
   ('ò', ['o', '̀']), ('ó', ['o', '́']), ('ô', ['o', '̂']),
   ('õ', ['o', '̃']), ('ö', ['o', '̈']),
   ('ù', ['u', '̀']), ('ú', ['u', '́']), ('û', ['u', '̂']),
   ('ü', ['u', '̈']),
   ('ý', ['y', '́']), ('ÿ', ['y', '̈'])]

/-- NFD decomposition of a single character. -/
def decomp (c : Char) : List Char :=
  ((decompTable.find? (fun p => p.1 = c)).map (fun p => p.2)).getD [c]

/-- Lowercase mapping of Python's `str.lower` / `re.IGNORECASE`, tabulated for
ASCII and Latin-1 uppercase letters; other characters map to themselves. -/
def lowerTable : List (Char × Char) :=
  [('A', 'a'), ('B', 'b'), ('C', 'c'), ('D', 'd'), ('E', 'e'), ('F', 'f'),
   ('G', 'g'), ('H', 'h'), ('I', 'i'), ('J', 'j'), ('K', 'k'), ('L', 'l'),
   ('M', 'm'), ('N', 'n'), ('O', 'o'), ('P', 'p'), ('Q', 'q'), ('R', 'r'),
   ('S', 's'), ('T', 't'), ('U', 'u'), ('V', 'v'), ('W', 'w'), ('X', 'x'),
   ('Y', 'y'), ('Z', 'z'),
   ('À', 'à'), ('Á', 'á'), ('Â', 'â'), ('Ã', 'ã'), ('Ä', 'ä'), ('Å', 'å'),
   ('Æ', 'æ'), ('Ç', 'ç'), ('È', 'è'), ('É', 'é'), ('Ê', 'ê'), ('Ë', 'ë'),
   ('Ì', 'ì'), ('Í', 'í'), ('Î', 'î'), ('Ï', 'ï'), ('Ð', 'ð'), ('Ñ', 'ñ'),
   ('Ò', 'ò'), ('Ó', 'ó'), ('Ô', 'ô'), ('Õ', 'õ'), ('Ö', 'ö'), ('Ø', 'ø'),
   ('Ù', 'ù'), ('Ú', 'ú'), ('Û', 'û'), ('Ü', 'ü'), ('Ý', 'ý'), ('Þ', 'þ')]

/-- Lowercasing of one character (ASCII and Latin-1). -/
def lowerFr (c : Char) : Char :=
  ((lowerTable.find? (fun p => p.1 = c)).map (fun p => p.2)).getD c

/-- Python regex `\s` class (whitespace), for the characters in scope. -/
def isSpaceChar (c : Char) : Bool :=
  c = ' ' || c = '\t' || c = '\n' || c = '\r' || c = '\x0b' || c = '\x0c' ||
    c.toNat = 0xA0

/-- Python regex `\w` class (word characters): ASCII alphanumerics and
underscore, plus the Latin-1 letters (U+00C0..U+00FF without the two
operators × U+00D7 and ÷ U+00F7). -/
def isWordChar (c : Char) : Bool :=
  c.isAlphanum || c = '_' ||
    (0xC0 ≤ c.toNat && c.toNat ≤ 0xFF && c.toNat ≠ 0xD7 && c.toNat ≠ 0xF7)

/-- One abbreviation rule of the `ABBREVIATIONS` dict: the case-insensitive
stem alternatives, whether the pattern allows an optional trailing dot
(`\.?`), and the replacement text. Every pattern is bracketed by `\b` word
boundaries. -/
structure AbbrevRule where
  stems : List (List Char)
  optDot : Bool
  repl : List Char

/-- Match a lowercase stem case-insensitively at the head of the input,
returning the rest of the input. -/
def matchStemCI : List Char → List Char → Option (List Char)
  | [], s => some s
  | _ :: _, [] => none
  | p :: ps, c :: cs => if lowerFr c = p then matchStemCI ps cs else none

/-- Word boundary directly after a matched stem (whose last character is a
word character): the next character must be a non-word character, or the
input must end. Returns the rest plus the fact that the previous original
character was a word character. -/
def stemBoundary (rest : List Char) : Option (List Char × Bool) :=
  match rest with
  | [] => some ([], true)
  | c :: _ => if isWordChar c then none else some (rest, true)

/-- Try to match one abbreviation pattern at the current position (which is
already known to sit at a `\b` boundary). The optional dot is greedy, as in
the regex: the dot is consumed only when a word boundary follows it, i.e.
when the character after the dot is a word character; otherwise the match
backtracks to the bare stem, which then needs a non-word successor. -/
def tryAbbrevAt (r : AbbrevRule) (s : List Char) : Option (List Char × Bool) :=
  r.stems.findSome? (fun stem =>
    (matchStemCI stem s).bind (fun rest =>
      match r.optDot, rest with
      | true, '.' :: c2 :: rest2 =>
          if isWordChar c2 then some (c2 :: rest2, false) else stemBoundary rest
      | _, _ => stemBoundary rest))

/-- Scanner of `re.sub` for one abbreviation rule: leftmost, non-overlapping
matches; `prevW` records whether the previous character of the original
string was a word character (so a `\b` boundary holds exactly when `prevW`
is false, since every stem starts with a letter). The fuel argument is the
remaining input length; each step consumes at least one character. -/
def subAbbrevGo (r : AbbrevRule) : Nat → Bool → List Char → List Char
  | _, _, [] => []
  | 0, _, s => s
  | Nat.succ f, prevW, c :: rest =>
      if prevW then c :: subAbbrevGo r f (isWordChar c) rest
      else
        match tryAbbrevAt r (c :: rest) with
        | some (rest', pw') => r.repl ++ subAbbrevGo r f pw' rest'
        | none => c :: subAbbrevGo r f (isWordChar c) rest

/-- Apply one abbreviation rule to the whole string (`re.sub`). -/
def subAbbrev (r : AbbrevRule) (s : List Char) : List Char :=
  subAbbrevGo r s.length false s

/-- The `ABBREVIATIONS` table, in dict insertion order. -/
def abbrevRules : List AbbrevRule :=
  [⟨[['s', 'e', 'm'], ['s', 'é', 'm']], true, "séminaire".data⟩,
   ⟨[['s', 't']], true, "saint".data⟩,
   ⟨[['s', 't', 'e']], true, "sainte".data⟩,
   ⟨[['c', 'o', 'l', 'l']], true, "collège".data⟩,
   ⟨[['l', 'e']], false, "le".data⟩,
   ⟨[['l', 'a']], false, "la".data⟩,
   ⟨[['c', 'f', 'p']], false, "Centre de formation professionnel".data⟩]

/-- The function `expand_abbreviations`: the rules are applied sequentially,
each over the output of the previous one. -/
def expandAbbreviations (s : List Char) : List Char :=
  abbrevRules.foldl (fun acc r => subAbbrev r acc) s

/-- Drop a maximal run of whitespace (`\s*`). -/
def dropSpaces : List Char → List Char
  | [] => []
  | c :: r => if isSpaceChar c then dropSpaces r else c :: r

/-- Require at least one whitespace character, then drop the maximal run
(`\s+` followed by a letter, so the greedy run needs no backtracking). -/
def takeSpaces1 (s : List Char) : Option (List Char) :=
  match s with
  | c :: rest => if isSpaceChar c then some (dropSpaces rest) else none
  | [] => none

/-- Matcher for the special-case pattern `\bLe\s+May\b` (case-insensitive),
at a position already at a `\b` boundary. -/
def tryLeMay (s : List Char) : Option (List Char) :=
  match matchStemCI ['l', 'e'] s with
  | none => none
  | some r1 =>
    match takeSpaces1 r1 with
    | none => none
    | some r2 =>
      match matchStemCI ['m', 'a', 'y'] r2 with
      | none => none
      | some r3 =>
        match stemBoundary r3 with
        | some _ => some r3
        | none => none

/-- Greedy `\.?\.?`: consume up to two dots (no backtracking is needed since
what follows is `\s*` and a letter, neither of which matches a dot). -/
def dropUpTo2Dots : List Char → List Char
  | '.' :: '.' :: r => r
  | '.' :: r => r
  | s => s

/-- Matcher for the special-case pattern `\bL\.-?J\.?\.?\s*Casault\b`
(case-insensitive), at a position already at a `\b` boundary. -/
def tryCasault (s : List Char) : Option (List Char) :=
  match matchStemCI ['l'] s with
  | none => none
  | some r1 =>
    match r1 with
    | '.' :: r2 =>
      let r3 := match r2 with | '-' :: rr => rr | _ => r2
      match matchStemCI ['j'] r3 with
      | none => none
      | some r4 =>
        match matchStemCI ['c', 'a', 's', 'a', 'u', 'l', 't']
            (dropSpaces (dropUpTo2Dots r4)) with
        | none => none
        | some r7 =>
          match stemBoundary r7 with
          | some _ => some r7
          | none => none
    | _ => none

/-- Scanner of `re.sub` for a special-case rule; both special-case matches
end in a letter, so after a replacement the previous-was-word flag is true. -/
def subSpecialGo (m : List Char → Option (List Char)) (repl : List Char) :
    Nat → Bool → List Char → List Char
  | _, _, [] => []
  | 0, _, s => s
  | Nat.succ f, prevW, c :: rest =>
      if prevW then c :: subSpecialGo m repl f (isWordChar c) rest
      else
        match m (c :: rest) with
        | some rest' => repl ++ subSpecialGo m repl f true rest'
        | none => c :: subSpecialGo m repl f (isWordChar c) rest

/-- Substitution for the first `SPECIAL_CASES` rule (`Le May` → `Lemay`). -/
def subLeMay (s : List Char) : List Char :=
  subSpecialGo tryLeMay ("Lemay".data) s.length false s

/-- Substitution for the second `SPECIAL_CASES` rule
(`L.-J. Casault` → `Louis-Jacques Casault`). -/
def subCasault (s : List Char) : List Char :=
  subSpecialGo tryCasault ("Louis-Jacques Casault".data) s.length false s

/-- Apply the two `SPECIAL_CASES` rules in order. -/
def applySpecialCases (s : List Char) : List Char := subCasault (subLeMay s)

/-- Accent stripping from `normalize`: NFD-decompose and drop combining
marks. -/
def stripAccents (s : List Char) : List Char :=
  (s.flatMap decomp).filter (fun c => !isMn c)

/-- Lowercase the whole string. -/
def lowerAll (s : List Char) : List Char := s.map lowerFr

/-- Scan for the closing parenthesis of `\(.*?\)`: the nearest `)` with no
newline before it (`.` does not match a newline). -/
def takeClose : List Char → Option (List Char)
  | [] => none
  | c :: r => if c = ')' then some r else if c = '\n' then none else takeClose r

/-- Scanner of `re.sub(r"\(.*?\)", "", text)`: remove each leftmost
parenthesized group; an unclosed `(` is kept verbatim. Fuel is the input
length. -/
def removeParensGo : Nat → List Char → List Char
  | _, [] => []
  | 0, s => s
  | Nat.succ f, c :: rest =>
      if c = '(' then
        match takeClose rest with
        | some rest' => removeParensGo f rest'
        | none => c :: removeParensGo f rest
      else c :: removeParensGo f rest

/-- Removal of parenthesized substrings. -/
def removeParens (s : List Char) : List Char := removeParensGo s.length s

/-- Replacement `re.sub(r"[^\w\s]", " ", text)`: every character that is
neither a word character nor whitespace becomes a space. -/
def removePunct (s : List Char) : List Char :=
  s.map (fun c => if isWordChar c || isSpaceChar c then c else ' ')

/-- Split into maximal whitespace-free words, discarding the whitespace
(the behaviour of Python `str.split()` without arguments; `cur` is the
reversed current word). -/
def wordsByGo (cur : List Char) : List Char → List (List Char)
  | [] => if cur.isEmpty then [] else [cur.reverse]
  | c :: r =>
      if isSpaceChar c then
        (if cur.isEmpty then wordsByGo [] r else cur.reverse :: wordsByGo [] r)
      else wordsByGo (c :: cur) r

/-- Words of a string (split on whitespace runs). -/
def splitWords (s : List Char) : List (List Char) := wordsByGo [] s

/-- Join words with single spaces. -/
def joinWords : List (List Char) → List Char
  | [] => []
  | [w] => w
  | w :: ws => w ++ ' ' :: joinWords ws

/-- The net effect of `re.sub(r"\s+", " ", text).strip()`: the words joined
by single spaces. -/
def collapseSpaces (s : List Char) : List Char :=
  joinWords (splitWords s)

/-- The character-level pipeline of `normalize`: abbreviation expansion,
special cases, accent stripping, lowercasing, parenthesized-group removal,
punctuation removal, whitespace collapsing — in exactly this order. -/
def normChars (s : List Char) : List Char :=
  collapseSpaces (removePunct (removeParens (lowerAll (stripAccents
    (applySpecialCases (expandAbbreviations s))))))

/-- The function `normalize` of `create_calendar.py` (the `if not text`
guard returns the empty string immediately). -/
def normalize (s : String) : String :=
  if s = "" then "" else String.mk (normChars s.data)

example : normalize "Sém. St-Jean" = "seminaire saint jean" := by decide
example : normalize "École Secondaire Saint-Jean" = "ecole secondaire saint jean" := by decide
example : normalize "s(a)t" = "st" := by decide
example : normalize "st" = "saint" := by decide
example : normalize "Le  May (x)" = "lemay" := by decide
example : normalize "L.-J. Casault" = "louis jacques casault" := by decide
/-- Boolean test that `needle` is a contiguous substring of `hay` (Python's
`in` operator on strings, at the character-list level). -/
def startsWithB : List Char → List Char → Bool
  | [], _ => true
  | _ :: _, [] => false
  | a :: as, b :: bs => a = b && startsWithB as bs

/-- Substring occurrence anywhere in `hay`. -/
def subListB (needle : List Char) : List Char → Bool
  | [] => needle.isEmpty
  | b :: bs => startsWithB needle (b :: bs) || subListB needle bs

/-- The substring relation of the resolver, in either direction, on the
normalized strings. -/
def substrRel (a b : String) : Bool :=
  subListB a.data b.data || subListB b.data a.data

/-- The function `overlap_score`: token sets from whitespace splitting, and
`|A ∩ B| / max(|A|, |B|)` as an exact rational (for the small denominators
arising from word counts, Python's float comparisons against other scores
and against the literal `0.45` agree with the exact rational ones). -/
def overlapScore (a b : String) : ℚ :=
  let sa := (splitWords a.data).dedup
  let sb := (splitWords b.data).dedup
  if sa.isEmpty || sb.isEmpty then 0
  else mkRat ((sa.filter (fun w => w ∈ sb)).length : Int) (max sa.length sb.length)

/-- The acceptance threshold `0.45` of `find_address_for_terrain`. -/
def overlapThreshold : ℚ := mkRat 45 100

/-- An address record: the `address` and `map_link` fields of one entry of
the addresses mapping built by `load_addresses`. -/
structure AddrRow where
  address : String
  mapLink : String
deriving DecidableEq, Repr

/-- The candidate loop of `find_address_for_terrain`: `best` and `bestEntry`
are the running `best_score` / `best_entry`; a substring hit in either
direction returns immediately; otherwise a strictly greater overlap score
updates the running best; after the loop the best entry is returned only if
its score strictly exceeds the threshold. -/
def resolveGo (nt : String) :
    List (String × AddrRow) → ℚ → Option AddrRow → Option (String × String)
  | [], best, bestEntry =>
      if overlapThreshold < best then
        bestEntry.map (fun r => (r.address, r.mapLink))
      else none
  | (schoolName, row) :: rest, best, bestEntry =>
      let ns := normalize schoolName
      if substrRel nt ns then
        some (row.address, row.mapLink)
      else
        let score := overlapScore nt ns
        if best < score then resolveGo nt rest score (some row)
        else resolveGo nt rest best bestEntry

/-- The function `find_address_for_terrain`: `none` models the Python return
value `(None, None)`, and `some (address, map_link)` the successful pair.
The `if not terrain` guard returns `(None, None)` before any candidate is
examined. -/
def findAddressForTerrain (terrain : String)
    (addresses : List (String × AddrRow)) : Option (String × String) :=
  if terrain = "" then none
  else resolveGo (normalize terrain) addresses 0 none

example :
    findAddressForTerrain "Sém. St-Jean"
      [("École Secondaire Saint-Jean", ⟨"1 Rue X", "http://m"⟩)] =
      some ("1 Rue X", "http://m") := by decide

/-- A parsed naive datetime (what a successful `datetime.strptime` returns
for the formats in play: year, month, day, hour, minute). -/
structure DateTimeVal where
  year : Nat
  month : Nat
  day : Nat
  hour : Nat
  minute : Nat
deriving DecidableEq, Repr

/-- Numeric value of a decimal digit character. -/
def digitVal (c : Char) : Nat := c.toNat - '0'.toNat

/-- CPython `strptime` directive `%Y`: exactly four digits. -/
def parse4Digits : List Char → Option (Nat × List Char)
  | a :: b :: c :: d :: rest =>
      if a.isDigit && b.isDigit && c.isDigit && d.isDigit then
        some (((digitVal a * 10 + digitVal b) * 10 + digitVal c) * 10 +
          digitVal d, rest)
      else none
  | _ => none

/-- CPython one-or-two-digit numeric directive (`%m`, `%d`, `%H`, `%M`): the
two-digit reading is preferred when its value satisfies the directive's
two-digit pattern, otherwise a single digit is accepted when it satisfies
the one-digit pattern (this reproduces the regex alternations such as
`3[01]|[12]\d|0[1-9]|[1-9]`; the following literal separators are
non-digits, so no further backtracking can succeed). -/
def parseNum2or1 (ok2 : Nat → Bool) (ok1 : Nat → Bool) :
    List Char → Option (Nat × List Char)
  | a :: rest =>
      if a.isDigit then
        match rest with
        | b :: rest2 =>
            if b.isDigit && ok2 (digitVal a * 10 + digitVal b) then
              some (digitVal a * 10 + digitVal b, rest2)
            else if ok1 (digitVal a) then some (digitVal a, rest)
            else none
        | [] => if ok1 (digitVal a) then some (digitVal a, []) else none
      else none
  | [] => none

/-- Literal separator character in a `strptime` format. -/
def parseSep (c : Char) : List Char → Option (List Char)
  | a :: r => if a = c then some r else none
  | [] => none

/-- Gregorian leap-year rule (as used by `datetime`). -/
def isLeapYear (y : Nat) : Bool :=
  y % 4 = 0 && (y % 100 ≠ 0 || y % 400 = 0)

/-- Number of days in a month (as validated by the `datetime` constructor). -/
def daysInMonth (y m : Nat) : Nat :=
  if m = 2 then (if isLeapYear y then 29 else 28)
  else if m = 4 || m = 6 || m = 9 || m = 11 then 30
  else 31

/-- Validity checks of the `datetime` constructor that are not already
enforced by the directive patterns: year within `MINYEAR..MAXYEAR` and day
within the month. -/
def validDate (y m d : Nat) : Bool :=
  1 ≤ y && y ≤ 9999 && 1 ≤ d && d ≤ daysInMonth y m

/-- Parse the date part of a format: either `%Y sep %m sep %d` or
`%d sep %m sep %Y`, returning `(year, month, day, rest)`. -/
def parseDateFields (ymdOrder : Bool) (sep : Char) (s : List Char) :
    Option (Nat × Nat × Nat × List Char) :=
  if ymdOrder then do
    let (y, r1) ← parse4Digits s
    let r2 ← parseSep sep r1
    let (m, r3) ← parseNum2or1 (fun v => 1 ≤ v && v ≤ 12) (fun v => 1 ≤ v) r2
    let r4 ← parseSep sep r3
    let (d, r5) ← parseNum2or1 (fun v => 1 ≤ v && v ≤ 31) (fun v => 1 ≤ v) r4
    some (y, m, d, r5)
  else do
    let (d, r1) ← parseNum2or1 (fun v => 1 ≤ v && v ≤ 31) (fun v => 1 ≤ v) s
    let r2 ← parseSep sep r1
    let (m, r3) ← parseNum2or1 (fun v => 1 ≤ v && v ≤ 12) (fun v => 1 ≤ v) r2
    let r4 ← parseSep sep r3
    let (y, r5) ← parse4Digits r4
    some (y, m, d, r5)

/-- Parse one whole format `"<date> %H:%M"`: the literal space in the format
matches one-or-more whitespace characters (CPython compiles format
whitespace to `\s+`), and the whole input must be consumed. -/
def parseFmt (ymdOrder : Bool) (sep : Char) (s : List Char) :
    Option DateTimeVal := do
  let (y, m, d, r) ← parseDateFields ymdOrder sep s
  let r1 ← takeSpaces1 r
  let (hh, r2) ← parseNum2or1 (fun v => v ≤ 23) (fun _ => true) r1
  let r3 ← parseSep ':' r2
  let (mm, r4) ← parseNum2or1 (fun v => v ≤ 59) (fun _ => true) r3
  match r4 with
  | [] => if validDate y m d then some ⟨y, m, d, hh, mm⟩ else none
  | _ => none

/-- The function `parse_datetime`: try the five formats in order on
`f"{date_str} {time_str}"`; `none` models the final `raise ValueError`. -/
def parseDatetime (dateStr timeStr : String) : Option DateTimeVal :=
  let s := (dateStr ++ " " ++ timeStr).data
  ((((parseFmt true '-' s).orElse (fun _ => parseFmt false '/' s)).orElse
      (fun _ => parseFmt false '-' s)).orElse
    (fun _ => parseFmt true '/' s)).orElse
  (fun _ => parseFmt false '.' s)

example : parseDatetime "2025-11-21" "18:30" = some ⟨2025, 11, 21, 18, 30⟩ := by decide
example : parseDatetime "21/11/2025" "8:05" = some ⟨2025, 11, 21, 8, 5⟩ := by decide
example : parseDatetime "2025-02-31" "10:00" = none := by decide
example : parseDatetime "" "18:30" = none := by decide

/-- A timezone-aware datetime, as produced by
`.replace(tzinfo=ZoneInfo("America/Toronto"))`. -/
structure ZonedDateTime where
  dt : DateTimeVal
  tz : String
deriving DecidableEq, Repr

/-- The timezone attached to every event start. -/
def torontoTz : String := "America/Toronto"

/-- Wall-clock addition of `k` minutes (`datetime + timedelta(minutes=k)`
within one timezone), for `k` small enough that at most one day boundary is
crossed — which holds for the fixed 90-minute duration. -/
def addMinutes (z : ZonedDateTime) (k : Nat) : ZonedDateTime :=
  let total := z.dt.minute + k
  let mm := total % 60
  let hh := z.dt.hour + total / 60
  if hh ≤ 23 then ⟨⟨z.dt.year, z.dt.month, z.dt.day, hh, mm⟩, z.tz⟩
  else
    let hh2 := hh - 24
    let d2 := z.dt.day + 1
    if d2 ≤ daysInMonth z.dt.year z.dt.month then
      ⟨⟨z.dt.year, z.dt.month, d2, hh2, mm⟩, z.tz⟩
    else if z.dt.month = 12 then ⟨⟨z.dt.year + 1, 1, 1, hh2, mm⟩, z.tz⟩
    else ⟨⟨z.dt.year, z.dt.month + 1, 1, hh2, mm⟩, z.tz⟩

/-- A referee record as built by `load_referees`: the combined display name
(`f"{Nom} {Prénom}"`) and the remaining contact fields. -/
structure Referee where
  nom : String
  tel1 : String
  tel2 : String
  courriel : String
deriving DecidableEq, Repr

/-- One CSV row of the referees file. -/
structure RefereeCsvRow where
  numero : String
  nom : String
  prenom : String
  ville : String
  tel1 : String
  tel2 : String
  courriel : String
deriving DecidableEq, Repr

/-- Python `str.strip()`: remove leading and trailing whitespace. -/
def stripStr (s : String) : String :=
  String.mk
    (((s.data.dropWhile (fun c => isSpaceChar c)).reverse.dropWhile
      (fun c => isSpaceChar c)).reverse)

/-- The function `load_referees`: key each record by the stripped `Numéro`
and combine `Nom` and `Prénom` into the display name. -/
def loadReferees (rows : List RefereeCsvRow) : List (String × Referee) :=
  rows.map (fun r =>
    (stripStr r.numero,
     ⟨stripStr r.nom ++ " " ++ stripStr r.prenom,
      stripStr r.tel1, stripStr r.tel2, stripStr r.courriel⟩))

/-- Python dict lookup on an insertion-ordered association list: with
duplicate keys the later insertion overwrites, so the last binding wins. -/
def dictGet (l : List (String × Referee)) (k : String) : Option Referee :=
  (l.reverse.find? (fun p => p.1 = k)).map (fun p => p.2)

/-- Python `str()` of the referee dict value, as interpolated by the
f-string `f"Autre arbitre: {referee_name}"` (modelled for field values
without quotes, backslashes or unprintable characters, which `repr` would
escape). -/
def pyStrOfReferee (r : Referee) : String :=
  "\x7b\x27Nom\x27: \x27" ++ r.nom ++ "\x27, \x27Téléphone 1\x27: \x27" ++
    r.tel1 ++ "\x27, \x27Téléphone 2\x27: \x27" ++ r.tel2 ++
    "\x27, \x27Courriel\x27: \x27" ++ r.courriel ++ "\x27\x7d"

/-- The value interpolated for the referee: the dict when the id is found,
the default `"Unknown"` otherwise (`referees.get(referee_id, "Unknown")`). -/
def renderRefereeName : Option Referee → String
  | none => "Unknown"
  | some r => pyStrOfReferee r

/-- One row of the matches CSV, with the fields read by `create_calendar`. -/
structure MatchRow where
  ligue : String
  calibre : String
  jour : String
  date : String
  heure : String
  equipes : String
  terrain : String
  autreArbitre : String
deriving DecidableEq, Repr

/-- A calendar event (`ics.Event`): `stop` models the `event.end`
attribute. -/
structure Event where
  name : String
  begin : ZonedDateTime
  stop : ZonedDateTime
  location : String
  description : String
deriving DecidableEq, Repr

/-- Python `f"{x}"` for an optional string: `None` renders as `"None"`. -/
def strOfOpt : Option String → String
  | none => "None"
  | some a => a

/-- The event title `f"Ligue: {ligue} - Calibre: {calibre}"`. -/
def eventTitle (row : MatchRow) : String :=
  "Ligue: " ++ row.ligue ++ " - Calibre: " ++ row.calibre

/-- The multi-line event description built by `create_calendar`, with the
resolved address, map link and referee rendering substituted in. -/
def eventDescription (row : MatchRow) (address mapLink : Option String)
    (refereeName : String) : String :=
  "Ligue: " ++ row.ligue ++ "\nCalibre: " ++ row.calibre ++
    "\nJour: " ++ row.jour ++ "\nDate: " ++ row.date ++
    "\nHeure: " ++ row.heure ++ "\nÉquipes: " ++ row.equipes ++
    "\nAutre arbitre: " ++ refereeName ++ "\nÉcole: " ++
    row.terrain ++ "\nAddresse: " ++ strOfOpt address ++
    "\n\nGoogle Maps Link:\n" ++ strOfOpt mapLink ++ "\n"

/-- The event location string built by `create_calendar`. -/
def eventLocation (row : MatchRow) (address mapLink : Option String) : String :=
  row.terrain ++ " - " ++ strOfOpt address ++ "\nGoogle Maps: " ++
    strOfOpt mapLink

/-- The body of the `create_calendar` loop for one match row: address and
referee lookups, then — only when both `Date` and `Heure` are non-empty —
date parsing (whose `ValueError` is modelled by `Except.error`), timezone
attachment, the 90-minute end time, and the event fields. An empty `Date`
or `Heure` produces no event and no error. -/
def processMatch (row : MatchRow) (addresses : List (String × AddrRow))
    (referees : List (String × Referee)) : Except String (Option Event) :=
  let al := findAddressForTerrain row.terrain addresses
  let address : Option String := al.map (fun p => p.1)
  let mapLink : Option String := al.map (fun p => p.2)
  let refereeName := renderRefereeName (dictGet referees row.autreArbitre)
  if row.date ≠ "" ∧ row.heure ≠ "" then
    match parseDatetime row.date row.heure with
    | none =>
        .error ("Unrecognized date/time format: \x27" ++ row.date ++ " " ++
          row.heure ++ "\x27")
    | some dtv =>
        let dtStart : ZonedDateTime := ⟨dtv, torontoTz⟩
        let dtEnd := addMinutes dtStart 90
        .ok (some ⟨eventTitle row, dtStart, dtEnd,
          eventLocation row address mapLink,
          eventDescription row address mapLink refereeName⟩)
  else .ok none

/-- The function `create_calendar` over all match rows: the first per-record
`ValueError` aborts the run; otherwise the produced events are collected. -/
def createCalendar (rows : List MatchRow) (addresses : List (String × AddrRow))
    (referees : List (String × Referee)) : Except String (List Event) :=
  match rows with
  | [] => .ok []
  | r :: rest =>
    match processMatch r addresses referees with
    | .error e => .error e
    | .ok o =>
      match createCalendar rest addresses referees with
      | .error e => .error e
      | .ok evs => .ok (match o with | some ev => ev :: evs | none => evs)
/-- One `<td>` cell of a parsed table row, abstracted to what the two safe
helpers read from it: `text` is the visible text after stripping `input`,
`script` and `style` sub-elements (on a copy, as `_td_text_safe` computes
it), and `link` is the `href` of the first anchor, or `""` when there is
none (as `_td_link_safe` computes it). -/
structure Cell where
  text : String
  link : String
deriving DecidableEq, Repr

/-- One `<input>` control inside a table row: its `type` attribute, its
`name` attribute (`attrs.get('name', '')`), its optional `value` attribute
(`attrs.get('value')`), and whether the `checked` attribute is present. -/
structure Ctrl where
  typ : String
  name : String
  value : Option String
  checked : Bool
deriving DecidableEq, Repr

/-- One parsed `<tr>` row: its `<td>` cells and its embedded `<input>`
controls, both in document order. -/
structure RawRow where
  cells : List Cell
  inputs : List Ctrl
deriving DecidableEq, Repr

/-- The helper `_td_text_safe`: the cell's stripped visible text, or `""`
when the index is out of range (the `except` branch). -/
def tdTextSafe (cols : List Cell) (idx : Nat) : String :=
  ((cols.get? idx).map (fun c => c.text)).getD ""

/-- The helper `_td_link_safe`: the first link of the cell, or `""` when the
index is out of range or there is no link. -/
def tdLinkSafe (cols : List Cell) (idx : Nat) : String :=
  ((cols.get? idx).map (fun c => c.link)).getD ""

/-- Column-name test `"lien" in col_name.lower() or "link" in
col_name.lower()`. -/
def isLinkColumn (name : String) : Bool :=
  subListB ("lien".data) (lowerAll name.data) ||
    subListB ("link".data) (lowerAll name.data)

/-- The per-row field map built from the column mapping (the first loop of
`load_html`): one entry per mapping key, in mapping order. -/
def buildRowData (mapping : List (String × Nat)) (cells : List Cell) :
    List (String × String) :=
  mapping.map (fun p =>
    (p.1, if isLinkColumn p.1 then tdLinkSafe cells p.2
          else tdTextSafe cells p.2))

/-- Python dict assignment `d[k] = v` on an insertion-ordered association
list: an existing key keeps its position and gets the new value, a new key
is appended at the end. -/
def upsert : List (String × String) → String → String → List (String × String)
  | [], k, v => [(k, v)]
  | p :: rest, k, v =>
      if p.1 = k then (k, v) :: rest else p :: upsert rest k v

/-- One iteration of the radio-button decode loop of `load_html`: a checked
radio whose name contains `isgameaccepted` overwrites `Accepté/Refusé` with
`Accepté` for value `"1"` and `Refusé` for value `"2"` (a missing or other
value leaves the field unchanged). -/
def radioStep (rd : List (String × String)) (radio : Ctrl) :
    List (String × String) :=
  if subListB ("isgameaccepted".data) radio.name.data && radio.checked then
    if radio.value = some "1" then upsert rd "Accepté/Refusé" "Accepté"
    else if radio.value = some "2" then upsert rd "Accepté/Refusé" "Refusé"
    else rd
  else rd

/-- The radio-button decode loop of `load_html`. -/
def radioFold (rd : List (String × String)) (radios : List Ctrl) :
    List (String × String) :=
  radios.foldl radioStep rd

/-- The checkbox decode loop of `load_html`: `md` is the running
`match_done` flag, initially `"no"`, flipped to `"yes"` by a checked
checkbox whose name contains `isgamedone` but not `isgamedonealone`; every
iteration writes the current flag into `Match fait` (the loop's last write
therefore stores the final flag). -/
def cbGo : List Ctrl → List (String × String) → String → List (String × String)
  | [], rd, _ => rd
  | cb :: rest, rd, md =>
      let qualifies := subListB ("isgamedone".data) cb.name.data &&
        !subListB ("isgamedonealone".data) cb.name.data
      let md2 := if qualifies && cb.checked then "yes" else md
      cbGo rest (upsert rd "Match fait" md2) md2

/-- The radio controls of a row (`row.find_all('input', {'type': 'radio'})`). -/
def radiosOf (row : RawRow) : List Ctrl := row.inputs.filter (fun c => c.typ = "radio")

/-- The checkbox controls of a row. -/
def checkboxesOf (row : RawRow) : List Ctrl :=
  row.inputs.filter (fun c => c.typ = "checkbox")

/-- The fully decoded field map of one control-bearing row: the base field
map, then the radio decode, then — only when checkboxes exist — the
checkbox decode. -/
def decodedRowData (mapping : List (String × Nat)) (row : RawRow) :
    List (String × String) :=
  let rd1 := radioFold (buildRowData mapping row.cells) (radiosOf row)
  if checkboxesOf row = [] then rd1 else cbGo (checkboxesOf row) rd1 "no"

/-- The body of the row loop of `load_html` for one row. `Except.error`
models an uncaught `IndexError` from the positional reads
`list(row_data.values())[9]` / `[10]` of the inclusion filter; `.ok none`
is a row producing no record (no cells, or dropped by the filter), `.ok
(some rd)` an emitted record. -/
def processRow (mapping : List (String × Nat)) (row : RawRow) :
    Except String (Option (List (String × String))) :=
  if row.cells = [] then .ok none
  else if radiosOf row ≠ [] ∨ checkboxesOf row ≠ [] then
    let rd := decodedRowData mapping row
    match (rd.map (fun p => p.2)).get? 9, (rd.map (fun p => p.2)).get? 10 with
    | some acc, some done =>
        if acc = "Accepté" && done = "no" then .ok (some rd) else .ok none
    | _, _ => .error "IndexError: list index out of range"
  else .ok (some (buildRowData mapping row.cells))

/-- The whole extraction loop of `load_html` over the parsed rows: the first
uncaught exception aborts the extraction, otherwise the emitted records are
collected in source order. -/
def loadHtmlRows (mapping : List (String × Nat)) :
    List RawRow → Except String (List (List (String × String)))
  | [] => .ok []
  | row :: rest =>
    match processRow mapping row with
    | .error e => .error e
    | .ok o =>
      match loadHtmlRows mapping rest with
      | .error e => .error e
      | .ok recs => .ok (match o with | some rd => rd :: recs | none => recs)

/-- The column mapping `COLUMN_MAP_ASSIGNATIONS` for the assignments page. -/
def assignColumnMap : List (String × Nat) :=
  [("#", 0), ("Ligue", 1), ("Calibre", 2), ("Jour", 4), ("Date", 5),
   ("Heure", 6), ("Equipes", 7), ("Terrain", 8), ("Autre arbitre", 9),
   ("Accepté/Refusé", 10), ("Match fait", 11)]

/-- The column mapping `COLUMN_MAP_ADDRESSES` for the addresses page. -/
def addrColumnMap : List (String × Nat) :=
  [("School Name", 0), ("Address", 1), ("Map Link", 2)]

/-- Value of a field in a field map (first binding; the construction keeps
keys unique). -/
def fieldValue (rd : List (String × String)) (k : String) : Option String :=
  (rd.find? (fun p => p.1 = k)).map (fun p => p.2)

/-- The decoded `Accepté/Refusé` status of a control-bearing assignments
row. -/
def acceptedStatus (row : RawRow) : String :=
  (fieldValue (decodedRowData assignColumnMap row) "Accepté/Refusé").getD ""

/-- The decoded `Match fait` status of a control-bearing assignments row. -/
def completedStatus (row : RawRow) : String :=
  (fieldValue (decodedRowData assignColumnMap row) "Match fait").getD ""
/-- An empty needle occurs in every string. -/
theorem subListB_nil (l : List Char) : subListB [] l = true := by
  cases l <;> simp [subListB, startsWithB, List.isEmpty]

/-- A string starts with itself followed by anything. -/
theorem startsWithB_self_append (n t : List Char) :
    startsWithB n (n ++ t) = true := by
  induction n with
  | nil => rfl
  | cons a as ih => simp [startsWithB, ih]

/-- A needle occurs at the head of itself followed by anything. -/
theorem subListB_self_append (n t : List Char) :
    subListB n (n ++ t) = true := by
  cases n with
  | nil => exact subListB_nil _
  | cons a as =>
    simp only [subListB, Bool.or_eq_true]
    exact Or.inl (startsWithB_self_append _ _)

/-- Splicing the needle anywhere gives an occurrence. -/
theorem subListB_intro (n x y h : List Char) (he : h = x ++ (n ++ y)) :
    subListB n h = true := by
  subst he
  induction x with
  | nil => exact subListB_self_append n y
  | cons a as ih =>
    cases n with
    | nil => exact subListB_nil _
    | cons b bs => simp [subListB]; right; simpa using ih

/-- Claim C4: with the single candidate `École Secondaire Saint-Jean` and
the query `Sém. St-Jean`, abbreviation expansion rewrites `Sém.` to
`séminaire` and `St` to `saint`, the token overlap of the two normalized
strings is `1/2 > 0.45`, and the resolver returns the candidate's address
and map link. -/
theorem c4_expansion_end_to_end :
    normalize "Sém. St-Jean" = "seminaire saint jean" ∧
    normalize "École Secondaire Saint-Jean" = "ecole secondaire saint jean" ∧
    overlapScore "seminaire saint jean" "ecole secondaire saint jean" =
      mkRat 1 2 ∧
    overlapThreshold < mkRat 1 2 ∧
    findAddressForTerrain "Sém. St-Jean"
        [("École Secondaire Saint-Jean", ⟨"1 Rue X", "http://m"⟩)] =
      some ("1 Rue X", "http://m") :=
  ⟨by decide, by decide, by decide, by decide, by decide⟩

/-- Claim C10: a non-empty query whose normalization is empty resolves to
the first candidate (the empty normalized query is a substring of every
normalized candidate name), so with a non-empty candidate mapping the
resolver never returns `none`. -/
theorem c10_empty_normalization_returns_head (terrain : String)
    (addrs : List (String × AddrRow)) (h0 : terrain ≠ "")
    (hn : normalize terrain = "") :
    findAddressForTerrain terrain addrs =
      addrs.head?.map (fun p => (p.2.address, p.2.mapLink)) := by
  unfold findAddressForTerrain
  rw [if_neg h0, hn]
  cases addrs with
  | nil => decide
  | cons p rest =>
    obtain ⟨nm, row⟩ := p
    have hsub : substrRel "" (normalize nm) = true := by
      simp [substrRel, subListB_nil]
    simp [resolveGo, hsub]

/-- Claim C10 witness: the query `"(x)"` (a parenthesized phrase) normalizes
to the empty string and resolves to the first candidate. -/
theorem c10_empty_normalization_returns_head_witness :
    ("(x)" ≠ "" ∧ normalize "(x)" = "") ∧
      findAddressForTerrain "(x)" [("Gym A", ⟨"addr", "link"⟩)] =
        some ("addr", "link") := by
  refine ⟨⟨by decide, by decide⟩, ?_⟩
  have h := c10_empty_normalization_returns_head "(x)"
    [("Gym A", ⟨"addr", "link"⟩)] (by decide) (by decide)
  rw [h]; rfl

/-- Generalised substring short-circuit: whatever the running best score and
entry, the loop returns the first substring hit. -/
theorem resolveGo_substring_first (nt : String) (l1 : List (String × AddrRow))
    (nm : String) (row : AddrRow) (l2 : List (String × AddrRow))
    (hpre : ∀ p ∈ l1, substrRel nt (normalize p.1) = false)
    (hmid : substrRel nt (normalize nm) = true) :
    ∀ (best : ℚ) (be : Option AddrRow),
      resolveGo nt (l1 ++ (nm, row) :: l2) best be =
        some (row.address, row.mapLink) := by
  induction l1 with
  | nil => intro best be; simp [resolveGo, hmid]
  | cons q t ih =>
    intro best be
    obtain ⟨qn, qr⟩ := q
    have hq : substrRel nt (normalize qn) = false := hpre (qn, qr) (by simp)
    have ht : ∀ p ∈ t, substrRel nt (normalize p.1) = false := fun p hp =>
      hpre p (List.mem_cons_of_mem _ hp)
    simp only [List.cons_append, resolveGo, hq]
    simp only [Bool.false_eq_true, if_false]
    split <;> exact ih ht _ _

/-- Claim C1 (amended: the query must additionally be non-empty, see the
counterexample): for a non-empty query, if some candidate's normalized name
stands in the substring relation with the normalized query, the resolver
returns the record of the first such candidate, with no constraint on any
overlap score and no consultation of the threshold. -/
theorem c1_substring_short_circuit (terrain : String) (h0 : terrain ≠ "")
    (l1 l2 : List (String × AddrRow)) (nm : String) (row : AddrRow)
    (hpre : ∀ p ∈ l1, substrRel (normalize terrain) (normalize p.1) = false)
    (hmid : substrRel (normalize terrain) (normalize nm) = true) :
    findAddressForTerrain terrain (l1 ++ (nm, row) :: l2) =
      some (row.address, row.mapLink) := by
  unfold findAddressForTerrain
  rw [if_neg h0]
  exact resolveGo_substring_first _ _ _ _ _ hpre hmid 0 none

/-- Claim C1 counterexample: for the empty query string the claim fails —
the empty query's normalization is a substring of the (sole) candidate's
normalized name, yet the resolver returns `none` (the `if not terrain`
guard fires before the candidate loop), not that candidate's record. -/
theorem c1_counterexample_empty_query :
    substrRel (normalize "") (normalize "Gym A") = true ∧
      findAddressForTerrain "" [("Gym A", ⟨"addr", "link"⟩)] = none :=
  ⟨by decide, by decide⟩

/-- Claim C1 witness: the first candidate holds the query as a prefix, so it
is a substring hit whose overlap score `5/12` is below the threshold, while
the later candidate scores `1 > 0.45`; the substring hit still wins. -/
theorem c1_substring_short_circuit_witness :
    ("a b c d e" ≠ "" ∧
      substrRel (normalize "a b c d e")
        (normalize "a b c d e f g h i j k l") = true ∧
      overlapScore (normalize "a b c d e")
        (normalize "a b c d e f g h i j k l") < overlapThreshold ∧
      overlapThreshold <
        overlapScore (normalize "a b c d e") (normalize "a b c d e")) ∧
    findAddressForTerrain "a b c d e"
        [("a b c d e f g h i j k l", ⟨"A1", "L1"⟩),
         ("a b c d e", ⟨"A2", "L2"⟩)] = some ("A1", "L1") := by
  refine ⟨⟨by decide, by decide, by decide, by decide⟩, ?_⟩
  exact c1_substring_short_circuit "a b c d e" (by decide) []
    [("a b c d e", ⟨"A2", "L2"⟩)] "a b c d e f g h i j k l" ⟨"A1", "L1"⟩
    (by intro p hp; cases hp) (by decide)
/-- The overlap scores of the candidates against a normalized query, in
iteration order. -/
def scoresOf (nt : String) (addrs : List (String × AddrRow)) : List ℚ :=
  addrs.map (fun p => overlapScore nt (normalize p.1))

/-- A fold by `max` is bounded below by its initial value. -/
theorem foldl_max_init_le (l : List ℚ) : ∀ a : ℚ, a ≤ l.foldl max a := by
  induction l with
  | nil => intro a; exact le_refl a
  | cons c t ih => intro a; exact le_trans (le_max_left a c) (ih (max a c))

/-- Loop invariant for the non-substring path of the resolver: starting
from a running best score and entry, the loop returns the first candidate
attaining the overall maximum if that maximum strictly exceeds both the
threshold and the initial best, the initial entry if nothing improved on
it, and `none` below the threshold. -/
theorem resolveGo_no_substring_general (nt : String) :
    ∀ l : List (String × AddrRow),
      (∀ p ∈ l, substrRel nt (normalize p.1) = false) →
      ∀ (best : ℚ) (be : Option AddrRow),
        resolveGo nt l best be =
          (if overlapThreshold < (scoresOf nt l).foldl max best then
            (if best < (scoresOf nt l).foldl max best then
              (l.map (fun p => (p.2.address, p.2.mapLink))).get?
                ((scoresOf nt l).findIdx
                  (fun s => s == (scoresOf nt l).foldl max best))
            else be.map (fun r => (r.address, r.mapLink)))
          else none) := by
  intro l
  induction l with
  | nil =>
    intro _ best be
    simp only [scoresOf, List.map_nil, List.foldl_nil, resolveGo]
    by_cases h : overlapThreshold < best
    · rw [if_pos h, if_pos h, if_neg (lt_irrefl best)]
    · rw [if_neg h, if_neg h]
  | cons q t ih =>
    intro hns best be
    obtain ⟨nm, row⟩ := q
    have hq : substrRel nt (normalize nm) = false := hns (nm, row) (by simp)
    have ht : ∀ p ∈ t, substrRel nt (normalize p.1) = false := fun p hp =>
      hns p (List.mem_cons_of_mem _ hp)
    have hsc : scoresOf nt ((nm, row) :: t) =
        overlapScore nt (normalize nm) :: scoresOf nt t := rfl
    simp only [resolveGo, hq, Bool.false_eq_true, if_false, hsc,
      List.foldl_cons, List.map_cons]
    by_cases hbs : best < overlapScore nt (normalize nm)
    · rw [if_pos hbs, ih ht (overlapScore nt (normalize nm)) (some row),
        max_eq_right (le_of_lt hbs)]
      have hM : overlapScore nt (normalize nm) ≤
          (scoresOf nt t).foldl max (overlapScore nt (normalize nm)) :=
        foldl_max_init_le _ _
      by_cases hth : overlapThreshold <
          (scoresOf nt t).foldl max (overlapScore nt (normalize nm))
      · rw [if_pos hth, if_pos hth, if_pos (lt_of_lt_of_le hbs hM)]
        by_cases heq : overlapScore nt (normalize nm) =
            (scoresOf nt t).foldl max (overlapScore nt (normalize nm))
        · have hbeq : (overlapScore nt (normalize nm) ==
              (scoresOf nt t).foldl max (overlapScore nt (normalize nm))) =
              true := beq_iff_eq.mpr heq
          rw [if_neg (by rw [← heq]; exact lt_irrefl _), List.findIdx_cons]
          simp only [hbeq, cond_true, List.get?_cons_zero]
          rfl
        · have hbeq : (overlapScore nt (normalize nm) ==
              (scoresOf nt t).foldl max (overlapScore nt (normalize nm))) =
              false := beq_eq_false_iff_ne.mpr heq
          rw [if_pos (lt_of_le_of_ne hM heq), List.findIdx_cons]
          simp only [hbeq, cond_false, List.get?_cons_succ]
      · rw [if_neg hth, if_neg hth]
    · rw [if_neg hbs, ih ht best be, max_eq_left (not_lt.mp hbs)]
      by_cases hth : overlapThreshold < (scoresOf nt t).foldl max best
      · rw [if_pos hth, if_pos hth]
        by_cases hbm : best < (scoresOf nt t).foldl max best
        · have hne : overlapScore nt (normalize nm) ≠
              (scoresOf nt t).foldl max best := fun he =>
            absurd hbm (not_lt.mpr (he ▸ (not_lt.mp hbs)))
          have hbeq : (overlapScore nt (normalize nm) ==
              (scoresOf nt t).foldl max best) = false :=
            beq_eq_false_iff_ne.mpr hne
          rw [if_pos hbm, if_pos hbm, List.findIdx_cons]
          simp only [hbeq, cond_false, List.get?_cons_succ]
        · rw [if_neg hbm, if_neg hbm]
      · rw [if_neg hth, if_neg hth]

/-- Claim C3: when no candidate stands in the substring relation with the
normalized query, the resolver returns the record of the first candidate
attaining the maximum overlap score if that maximum strictly exceeds the
0.45 threshold, and `none` otherwise. -/
theorem c3_threshold_best_match (terrain : String)
    (addrs : List (String × AddrRow))
    (hns : ∀ p ∈ addrs, substrRel (normalize terrain) (normalize p.1) = false) :
    findAddressForTerrain terrain addrs =
      (if overlapThreshold <
          (scoresOf (normalize terrain) addrs).foldl max 0 then
        (addrs.map (fun p => (p.2.address, p.2.mapLink))).get?
          ((scoresOf (normalize terrain) addrs).findIdx
            (fun s => s == (scoresOf (normalize terrain) addrs).foldl max 0))
      else none) := by
  by_cases h0 : terrain = ""
  · subst h0
    cases addrs with
    | nil => decide
    | cons p t =>
      have := hns p (by simp)
      rw [show normalize "" = "" by decide] at this
      simp [substrRel, subListB_nil] at this
  · unfold findAddressForTerrain
    rw [if_neg h0, resolveGo_no_substring_general (normalize terrain) addrs hns 0 none]
    by_cases hth : overlapThreshold <
        (scoresOf (normalize terrain) addrs).foldl max 0
    · rw [if_pos hth, if_pos hth,
        if_pos (lt_trans (by decide : (0 : ℚ) < overlapThreshold) hth)]
    · rw [if_neg hth, if_neg hth]

/-- Claim C3 witness: two candidates without any substring relation; the
second scores `3/4 > 0.45` and is returned. -/
theorem c3_threshold_best_match_witness :
    (∀ p ∈ [("x y z", (⟨"A1", "L1"⟩ : AddrRow)), ("a q b c", ⟨"A3", "L3"⟩)],
        substrRel (normalize "a b c") (normalize p.1) = false) ∧
    findAddressForTerrain "a b c"
        [("x y z", ⟨"A1", "L1"⟩), ("a q b c", ⟨"A3", "L3"⟩)] =
      some ("A3", "L3") := by
  refine ⟨by decide, ?_⟩
  rw [c3_threshold_best_match "a b c"
    [("x y z", ⟨"A1", "L1"⟩), ("a q b c", ⟨"A3", "L3"⟩)] (by decide)]
  decide
/-- Occurrence is preserved by prepending one character. -/
theorem subListB_cons_of (n : List Char) (b : Char) (bs : List Char)
    (h : subListB n bs = true) : subListB n (b :: bs) = true := by
  cases n with
  | nil => exact subListB_nil _
  | cons a as =>
    simp only [subListB, Bool.or_eq_true]
    exact Or.inr h

/-- Occurrence is preserved by prepending any list. -/
theorem subListB_append_left (n pre h : List Char)
    (hh : subListB n h = true) : subListB n (pre ++ h) = true := by
  induction pre with
  | nil => exact hh
  | cons c t ih => exact subListB_cons_of n c (t ++ h) ih

/-- The shape of a successful `processMatch`: with non-empty date and time
fields that parse to `dtv`, the produced event starts at `dtv` in the
Toronto timezone, ends 90 minutes later, and carries the title, location
and description built from the row and the two lookups. -/
theorem processMatch_ok (row : MatchRow) (addrs : List (String × AddrRow))
    (refs : List (String × Referee)) (dtv : DateTimeVal)
    (h1 : row.date ≠ "") (h2 : row.heure ≠ "")
    (hp : parseDatetime row.date row.heure = some dtv) :
    processMatch row addrs refs =
      .ok (some ⟨eventTitle row, ⟨dtv, torontoTz⟩,
        addMinutes ⟨dtv, torontoTz⟩ 90,
        eventLocation row
          ((findAddressForTerrain row.terrain addrs).map (fun p => p.1))
          ((findAddressForTerrain row.terrain addrs).map (fun p => p.2)),
        eventDescription row
          ((findAddressForTerrain row.terrain addrs).map (fun p => p.1))
          ((findAddressForTerrain row.terrain addrs).map (fun p => p.2))
          (renderRefereeName (dictGet refs row.autreArbitre))⟩) := by
  simp only [processMatch]
  rw [if_pos ⟨h1, h2⟩, hp]

/-- Claim C7: the record linker raises for a match record exactly when both
`Date` and `Heure` are non-empty and their combination parses under none of
the known formats; a record with empty `Date` or empty `Heure` yields no
event and no error. -/
theorem c7_error_iff_unparseable (row : MatchRow)
    (addrs : List (String × AddrRow)) (refs : List (String × Referee)) :
    ((∃ e, processMatch row addrs refs = .error e) ↔
      (row.date ≠ "" ∧ row.heure ≠ "" ∧
        parseDatetime row.date row.heure = none)) ∧
    ((row.date = "" ∨ row.heure = "") →
      processMatch row addrs refs = .ok none) := by
  by_cases hcond : row.date ≠ "" ∧ row.heure ≠ ""
  · cases hp : parseDatetime row.date row.heure with
    | none =>
      have hpm : processMatch row addrs refs =
          .error ("Unrecognized date/time format: \x27" ++ row.date ++ " " ++
            row.heure ++ "\x27") := by
        simp only [processMatch]
        rw [if_pos hcond, hp]
      refine ⟨⟨fun _ => ⟨hcond.1, hcond.2, rfl⟩, fun _ => ⟨_, hpm⟩⟩, ?_⟩
      intro hor
      exact absurd (hor.elim (fun h => h) (fun h => False.elim (hcond.2 h)))
        hcond.1
    | some dtv =>
      have hpm := processMatch_ok row addrs refs dtv hcond.1 hcond.2 hp
      constructor
      · constructor
        · intro ⟨e, he⟩
          rw [hpm] at he
          exact absurd he (by intro h; cases h)
        · intro ⟨_, _, hpn⟩
          cases hpn
      · intro hor
        exact absurd (hor.elim (fun h => h) (fun h => False.elim (hcond.2 h)))
          hcond.1
  · have hpm : processMatch row addrs refs = .ok none := by
      simp only [processMatch]
      rw [if_neg hcond]
    refine ⟨⟨fun ⟨e, he⟩ => ?_, fun ⟨hd, hh, _⟩ => absurd ⟨hd, hh⟩ hcond⟩,
      fun _ => hpm⟩
    rw [hpm] at he
    cases he

/-- Claim C7 witness: a record with present but unparseable date and time
raises, and a record with an empty date is silently skipped. -/
theorem c7_error_iff_unparseable_witness :
    (("2025-13-45" : String) ≠ "" ∧ ("25:99" : String) ≠ "" ∧
      parseDatetime "2025-13-45" "25:99" = none) ∧
    (∃ e, processMatch ⟨"L", "C", "J", "2025-13-45", "25:99", "E", "T", "R"⟩
        [] [] = .error e) ∧
    processMatch ⟨"L", "C", "J", "", "18:30", "E", "T", "R"⟩ [] [] =
      .ok none := by
  refine ⟨⟨by decide, by decide, by decide⟩, ?_, ?_⟩
  · exact (c7_error_iff_unparseable
      ⟨"L", "C", "J", "2025-13-45", "25:99", "E", "T", "R"⟩ [] []).1.mpr
      ⟨by decide, by decide, by decide⟩
  · exact (c7_error_iff_unparseable
      ⟨"L", "C", "J", "", "18:30", "E", "T", "R"⟩ [] []).2 (Or.inl rfl)

/-- Claim C8: for a match record with non-empty parseable date and time, the
event's start is the parsed datetime with the `America/Toronto` timezone
attached and its end is the start plus exactly 90 minutes. -/
theorem c8_start_and_ninety_minutes (row : MatchRow)
    (addrs : List (String × AddrRow)) (refs : List (String × Referee))
    (dtv : DateTimeVal) (h1 : row.date ≠ "") (h2 : row.heure ≠ "")
    (hp : parseDatetime row.date row.heure = some dtv) :
    ∃ ev, processMatch row addrs refs = .ok (some ev) ∧
      ev.begin = ⟨dtv, torontoTz⟩ ∧
      ev.stop = addMinutes ⟨dtv, torontoTz⟩ 90 := by
  exact ⟨_, processMatch_ok row addrs refs dtv h1 h2 hp, rfl, rfl⟩

/-- Claim C8 witness: `Date "2025-11-21"`, `Heure "18:30"` yields start
2025-11-21T18:30 and end 2025-11-21T20:00, both in `America/Toronto`. -/
theorem c8_start_and_ninety_minutes_witness :
    parseDatetime "2025-11-21" "18:30" = some ⟨2025, 11, 21, 18, 30⟩ ∧
    ∃ ev, processMatch ⟨"LBQ", "A", "ven", "2025-11-21", "18:30", "X vs Y",
        "Gym", "7"⟩ [] [] = .ok (some ev) ∧
      ev.begin = ⟨⟨2025, 11, 21, 18, 30⟩, "America/Toronto"⟩ ∧
      ev.stop = ⟨⟨2025, 11, 21, 20, 0⟩, "America/Toronto"⟩ := by
  refine ⟨by decide, ?_⟩
  obtain ⟨ev, hok, hb, hs⟩ := c8_start_and_ninety_minutes
    ⟨"LBQ", "A", "ven", "2025-11-21", "18:30", "X vs Y", "Gym", "7"⟩ [] []
    ⟨2025, 11, 21, 18, 30⟩ (by decide) (by decide) (by decide)
  exact ⟨ev, hok, hb, hs.trans (by decide)⟩

/-- Claim C9: for a generated event, when the `Autre arbitre` id is present
in the referee mapping the description embeds that referee's display name
(the surname-plus-given-name string built by `load_referees`); when absent,
the description embeds `Unknown`. -/
theorem c9_referee_in_description (row : MatchRow)
    (addrs : List (String × AddrRow)) (refRows : List RefereeCsvRow)
    (dtv : DateTimeVal) (h1 : row.date ≠ "") (h2 : row.heure ≠ "")
    (hp : parseDatetime row.date row.heure = some dtv) :
    ∃ ev, processMatch row addrs (loadReferees refRows) = .ok (some ev) ∧
      (∀ r, dictGet (loadReferees refRows) row.autreArbitre = some r →
        subListB r.nom.data ev.description.data = true) ∧
      (dictGet (loadReferees refRows) row.autreArbitre = none →
        subListB ("Unknown".data) ev.description.data = true) := by
  refine ⟨_, processMatch_ok row addrs (loadReferees refRows) dtv h1 h2 hp,
    ?_, ?_⟩
  · intro r hr
    show subListB r.nom.data (eventDescription row _ _
      (renderRefereeName (dictGet (loadReferees refRows)
        row.autreArbitre))).data = true
    rw [hr]
    simp only [renderRefereeName, pyStrOfReferee, eventDescription,
      String.data_append, List.append_assoc]
    repeat first
      | exact subListB_self_append _ _
      | apply subListB_append_left
  · intro hr
    show subListB ("Unknown".data) (eventDescription row _ _
      (renderRefereeName (dictGet (loadReferees refRows)
        row.autreArbitre))).data = true
    rw [hr]
    simp only [renderRefereeName, eventDescription, String.data_append,
      List.append_assoc]
    repeat first
      | exact subListB_self_append _ _
      | apply subListB_append_left

/-- Claim C9 witness: with referee `7 → Doe Jane` in the mapping, the
description of the generated event contains `Doe Jane`. -/
theorem c9_referee_in_description_witness :
    dictGet (loadReferees [⟨"7", "Doe", "Jane", "V", "t1", "t2", "m"⟩]) "7" =
      some ⟨"Doe Jane", "t1", "t2", "m"⟩ ∧
    ∃ ev, processMatch ⟨"LBQ", "A", "ven", "2025-11-21", "18:30", "X vs Y",
        "Gym", "7"⟩ []
        (loadReferees [⟨"7", "Doe", "Jane", "V", "t1", "t2", "m"⟩]) =
      .ok (some ev) ∧
      subListB ("Doe Jane".data) ev.description.data = true := by
  refine ⟨by decide, ?_⟩
  obtain ⟨ev, hok, hsome, _⟩ := c9_referee_in_description
    ⟨"LBQ", "A", "ven", "2025-11-21", "18:30", "X vs Y", "Gym", "7"⟩ []
    [⟨"7", "Doe", "Jane", "V", "t1", "t2", "m"⟩] ⟨2025, 11, 21, 18, 30⟩
    (by decide) (by decide) (by decide)
  exact ⟨ev, hok, hsome ⟨"Doe Jane", "t1", "t2", "m"⟩ (by decide)⟩
/-- Updating an existing key leaves the key sequence of a field map
unchanged. -/
theorem upsert_keys (rd : List (String × String)) (k v : String)
    (hm : k ∈ rd.map (fun p => p.1)) :
    (upsert rd k v).map (fun p => p.1) = rd.map (fun p => p.1) := by
  induction rd with
  | nil => cases hm
  | cons p t ih =>
    by_cases hk : p.1 = k
    · simp [upsert, hk]
    · have hm' : k ∈ t.map (fun p => p.1) := by
        rcases List.mem_cons.mp hm with h | h
        · exact absurd h.symm hk
        · exact h
      simp [upsert, hk, ih hm']

/-- Updating an existing key can only keep or grow the map, never shrink
it. -/
theorem upsert_length_le (rd : List (String × String)) (k v : String) :
    rd.length ≤ (upsert rd k v).length := by
  induction rd with
  | nil => simp [upsert]
  | cons p t ih =>
    by_cases hk : p.1 = k
    · simp [upsert, hk]
    · simpa [upsert, hk] using ih

/-- One radio decode step preserves the key sequence when the status key is
present. -/
theorem radioStep_keys (rd : List (String × String)) (radio : Ctrl)
    (hm : "Accepté/Refusé" ∈ rd.map (fun p => p.1)) :
    (radioStep rd radio).map (fun p => p.1) = rd.map (fun p => p.1) := by
  unfold radioStep
  split_ifs <;> first | rfl | exact upsert_keys rd _ _ hm

/-- The radio decode loop preserves the key sequence when the status key is
present. -/
theorem radioFold_keys (radios : List Ctrl) :
    ∀ rd : List (String × String),
      "Accepté/Refusé" ∈ rd.map (fun p => p.1) →
      (radioFold rd radios).map (fun p => p.1) = rd.map (fun p => p.1) := by
  induction radios with
  | nil => intro rd _; rfl
  | cons radio rest ih =>
    intro rd hm
    have hstep := radioStep_keys rd radio hm
    have : radioFold rd (radio :: rest) = radioFold (radioStep rd radio) rest :=
      rfl
    rw [this, ih (radioStep rd radio) (hstep ▸ hm), hstep]

/-- The checkbox decode loop preserves the key sequence when the completion
key is present. -/
theorem cbGo_keys (cbs : List Ctrl) :
    ∀ (rd : List (String × String)) (md : String),
      "Match fait" ∈ rd.map (fun p => p.1) →
      (cbGo cbs rd md).map (fun p => p.1) = rd.map (fun p => p.1) := by
  induction cbs with
  | nil => intro rd md _; rfl
  | cons cb rest ih =>
    intro rd md hm
    have hup := upsert_keys rd "Match fait"
      (if (subListB ("isgamedone".data) cb.name.data &&
        !subListB ("isgamedonealone".data) cb.name.data) && cb.checked
        then "yes" else md) hm
    simp only [cbGo]
    rw [ih _ _ (hup ▸ hm), hup]

/-- The keys of the base field map are the mapping's field names, in
order. -/
theorem buildRowData_keys (mapping : List (String × Nat)) (cells : List Cell) :
    (buildRowData mapping cells).map (fun p => p.1) =
      mapping.map (fun p => p.1) := by
  simp [buildRowData, List.map_map, Function.comp]

/-- The decoded assignments row keeps exactly the eleven mapping keys. -/
theorem decodedRowData_assign_keys (row : RawRow) :
    (decodedRowData assignColumnMap row).map (fun p => p.1) =
      assignColumnMap.map (fun p => p.1) := by
  have hb := buildRowData_keys assignColumnMap row.cells
  have hacc : "Accepté/Refusé" ∈
      (buildRowData assignColumnMap row.cells).map (fun p => p.1) := by
    rw [hb]; decide
  have hr := radioFold_keys (radiosOf row) _ hacc
  unfold decodedRowData
  split
  · rw [hr, hb]
  · have hmf : "Match fait" ∈
        (radioFold (buildRowData assignColumnMap row.cells)
          (radiosOf row)).map (fun p => p.1) := by
      rw [hr, hb]; decide
    rw [cbGo_keys _ _ _ hmf, hr, hb]

/-- In a field map with pairwise distinct keys, the value at position `i` of
the values list is the value associated with the `i`-th key. -/
theorem values_get?_eq_fieldValue :
    ∀ (rd : List (String × String)) (ks : List String),
      rd.map (fun p => p.1) = ks → ks.Nodup →
      ∀ (i : Nat) (k : String), ks.get? i = some k →
        (rd.map (fun p => p.2)).get? i = fieldValue rd k := by
  intro rd
  induction rd with
  | nil =>
    intro ks hmap _ i k hk
    rw [← hmap] at hk
    cases i <;> cases hk
  | cons p t ih =>
    intro ks hmap hnd i k hk
    subst hmap
    cases i with
    | zero =>
      have hk0 : p.1 = k := by
        simpa using hk
      simp only [List.map_cons, List.get?_cons_zero, fieldValue,
        List.find?_cons]
      rw [decide_eq_true hk0]
      rfl
    | succ j =>
      have hkt : (t.map (fun p => p.1)).get? j = some k := by
        simpa using hk
      have hmem : k ∈ t.map (fun p => p.1) := List.get?_mem hkt
      have hne : ¬ p.1 = k := by
        intro he
        exact (List.nodup_cons.mp hnd).1 (by simpa [he] using hmem)
      have hres := ih (t.map (fun p => p.1)) rfl (List.nodup_cons.mp hnd).2 j k hkt
      simp only [List.map_cons, List.get?_cons_succ, fieldValue,
        List.find?_cons]
      rw [decide_eq_false hne]
      exact hres
/-- Claim C2: for every assignments-table row with at least one cell and at
least one radio or checkbox control, the extractor emits the decoded field
record exactly when the decoded `Accepté/Refusé` status is `Accepté` and
the decoded `Match fait` status is `no`; all other combinations yield
`.ok none` (dropped silently, no error). In particular the positional reads
at indices 9 and 10 of the values list coincide with the two named decoded
status fields. -/
theorem c2_inclusion_filter (row : RawRow) (hc : row.cells ≠ [])
    (hctrl : radiosOf row ≠ [] ∨ checkboxesOf row ≠ []) :
    processRow assignColumnMap row =
      .ok (if acceptedStatus row = "Accepté" ∧ completedStatus row = "no"
        then some (decodedRowData assignColumnMap row) else none) := by
  have hkeys := decodedRowData_assign_keys row
  have hnd : (assignColumnMap.map (fun p => p.1)).Nodup := by decide
  have h9 : (assignColumnMap.map (fun p => p.1)).get? 9 =
      some "Accepté/Refusé" := rfl
  have h10 : (assignColumnMap.map (fun p => p.1)).get? 10 =
      some "Match fait" := rfl
  have hv9 := values_get?_eq_fieldValue (decodedRowData assignColumnMap row) _
    hkeys hnd 9 "Accepté/Refusé" h9
  have hv10 := values_get?_eq_fieldValue (decodedRowData assignColumnMap row) _
    hkeys hnd 10 "Match fait" h10
  have hmem9 : "Accepté/Refusé" ∈
      (decodedRowData assignColumnMap row).map (fun p => p.1) := by
    rw [hkeys]; decide
  have hmem10 : "Match fait" ∈
      (decodedRowData assignColumnMap row).map (fun p => p.1) := by
    rw [hkeys]; decide
  obtain ⟨x, hx, hx1⟩ := List.mem_map.mp hmem9
  obtain ⟨y, hy, hy1⟩ := List.mem_map.mp hmem10
  obtain ⟨q, hq⟩ := Option.isSome_iff_exists.mp (List.find?_isSome.mpr
    ⟨x, hx, by simp [hx1]⟩ :
      ((decodedRowData assignColumnMap row).find?
        (fun p => p.1 = "Accepté/Refusé")).isSome = true)
  obtain ⟨q', hq'⟩ := Option.isSome_iff_exists.mp (List.find?_isSome.mpr
    ⟨y, hy, by simp [hy1]⟩ :
      ((decodedRowData assignColumnMap row).find?
        (fun p => p.1 = "Match fait")).isSome = true)
  have hacc : fieldValue (decodedRowData assignColumnMap row)
      "Accepté/Refusé" = some q.2 := by simp [fieldValue, hq]
  have hdone : fieldValue (decodedRowData assignColumnMap row)
      "Match fait" = some q'.2 := by simp [fieldValue, hq']
  have haccs : acceptedStatus row = q.2 := by
    simp [acceptedStatus, hacc]
  have hdones : completedStatus row = q'.2 := by
    simp [completedStatus, hdone]
  simp only [processRow]
  rw [if_neg hc, if_pos hctrl]
  simp only [hv9.trans hacc, hv10.trans hdone, ← haccs, ← hdones]
  by_cases hA : acceptedStatus row = "Accepté" <;>
    by_cases hB : completedStatus row = "no" <;>
    simp [hA, hB]

/-- Claim C2 witness: a twelve-cell assignments row with a checked
`isgameaccepted` radio of value `1` and an unchecked `isgamedone` checkbox
decodes to `Accepté` / `no` and is emitted. -/
theorem c2_inclusion_filter_witness :
    ((⟨[⟨"1", ""⟩, ⟨"LBQ", ""⟩, ⟨"A", ""⟩, ⟨"x", ""⟩, ⟨"ven", ""⟩,
        ⟨"2025-11-21", ""⟩, ⟨"18:30", ""⟩, ⟨"A vs B", ""⟩, ⟨"Gym", ""⟩,
        ⟨"12", ""⟩, ⟨"", ""⟩, ⟨"", ""⟩],
       [⟨"radio", "isgameaccepted_3", some "1", true⟩,
        ⟨"checkbox", "isgamedone_3", some "1", false⟩]⟩ : RawRow).cells ≠ [] ∧
      acceptedStatus ⟨[⟨"1", ""⟩, ⟨"LBQ", ""⟩, ⟨"A", ""⟩, ⟨"x", ""⟩,
        ⟨"ven", ""⟩, ⟨"2025-11-21", ""⟩, ⟨"18:30", ""⟩, ⟨"A vs B", ""⟩,
        ⟨"Gym", ""⟩, ⟨"12", ""⟩, ⟨"", ""⟩, ⟨"", ""⟩],
       [⟨"radio", "isgameaccepted_3", some "1", true⟩,
        ⟨"checkbox", "isgamedone_3", some "1", false⟩]⟩ = "Accepté") ∧
    processRow assignColumnMap
      ⟨[⟨"1", ""⟩, ⟨"LBQ", ""⟩, ⟨"A", ""⟩, ⟨"x", ""⟩, ⟨"ven", ""⟩,
        ⟨"2025-11-21", ""⟩, ⟨"18:30", ""⟩, ⟨"A vs B", ""⟩, ⟨"Gym", ""⟩,
        ⟨"12", ""⟩, ⟨"", ""⟩, ⟨"", ""⟩],
       [⟨"radio", "isgameaccepted_3", some "1", true⟩,
        ⟨"checkbox", "isgamedone_3", some "1", false⟩]⟩ =
      .ok (some (decodedRowData assignColumnMap
        ⟨[⟨"1", ""⟩, ⟨"LBQ", ""⟩, ⟨"A", ""⟩, ⟨"x", ""⟩, ⟨"ven", ""⟩,
          ⟨"2025-11-21", ""⟩, ⟨"18:30", ""⟩, ⟨"A vs B", ""⟩, ⟨"Gym", ""⟩,
          ⟨"12", ""⟩, ⟨"", ""⟩, ⟨"", ""⟩],
         [⟨"radio", "isgameaccepted_3", some "1", true⟩,
          ⟨"checkbox", "isgamedone_3", some "1", false⟩]⟩)) := by
  refine ⟨⟨by decide, by decide⟩, ?_⟩
  rw [c2_inclusion_filter _ (by decide) (Or.inl (by decide))]
  rw [if_pos ⟨by decide, by decide⟩]
/-- One radio decode step never shrinks the field map. -/
theorem radioStep_length (rd : List (String × String)) (radio : Ctrl) :
    rd.length ≤ (radioStep rd radio).length := by
  unfold radioStep
  split_ifs <;> first | exact le_refl _ | exact upsert_length_le rd _ _

/-- The radio decode loop never shrinks the field map. -/
theorem radioFold_length (radios : List Ctrl) :
    ∀ rd : List (String × String), rd.length ≤ (radioFold rd radios).length := by
  induction radios with
  | nil => intro rd; exact le_refl _
  | cons radio rest ih =>
    intro rd
    exact le_trans (radioStep_length rd radio) (ih (radioStep rd radio))

/-- The checkbox decode loop never shrinks the field map. -/
theorem cbGo_length (cbs : List Ctrl) :
    ∀ (rd : List (String × String)) (md : String),
      rd.length ≤ (cbGo cbs rd md).length := by
  induction cbs with
  | nil => intro rd md; exact le_refl _
  | cons cb rest ih =>
    intro rd md
    exact le_trans (upsert_length_le rd "Match fait" _) (ih _ _)

/-- The decoded field map has at least as many entries as the column
mapping. -/
theorem decodedRowData_length (mapping : List (String × Nat)) (row : RawRow) :
    mapping.length ≤ (decodedRowData mapping row).length := by
  have hb : (buildRowData mapping row.cells).length = mapping.length :=
    List.length_map _ _
  have h1 : mapping.length ≤
      (radioFold (buildRowData mapping row.cells) (radiosOf row)).length :=
    hb ▸ radioFold_length (radiosOf row) _
  unfold decodedRowData
  split
  · exact h1
  · exact le_trans h1 (cbGo_length _ _ _)

/-- With a column mapping of at least eleven fields, the row loop cannot
raise: every row yields `.ok`. -/
theorem processRow_no_error (mapping : List (String × Nat)) (row : RawRow)
    (h11 : 11 ≤ mapping.length) :
    ∃ o, processRow mapping row = .ok o := by
  by_cases hc : row.cells = []
  · exact ⟨none, by simp only [processRow]; rw [if_pos hc]⟩
  · by_cases hctrl : radiosOf row ≠ [] ∨ checkboxesOf row ≠ []
    · have hlen : 11 ≤ (decodedRowData mapping row).length :=
        le_trans h11 (decodedRowData_length mapping row)
      have hm : ((decodedRowData mapping row).map (fun p => p.2)).length =
          (decodedRowData mapping row).length := List.length_map _ _
      have h9 : ¬ (((decodedRowData mapping row).map
          (fun p => p.2)).get? 9 = none) := by
        rw [List.get?_eq_none, hm]
        omega
      have h10 : ¬ (((decodedRowData mapping row).map
          (fun p => p.2)).get? 10 = none) := by
        rw [List.get?_eq_none, hm]
        omega
      obtain ⟨a, ha⟩ := Option.ne_none_iff_exists'.mp h9
      obtain ⟨b, hb⟩ := Option.ne_none_iff_exists'.mp h10
      refine ⟨if a = "Accepté" && b = "no"
        then some (decodedRowData mapping row) else none, ?_⟩
      simp only [processRow]
      rw [if_neg hc, if_pos hctrl]
      simp only [ha, hb]
      split <;> rfl
    · exact ⟨some (buildRowData mapping row.cells), by
        simp only [processRow]; rw [if_neg hc, if_neg hctrl]⟩

/-- Claim C6 (amended: the guarantee needs a column mapping with at least
eleven fields — as the assignments mapping has — see the counterexample):
with such a mapping, extraction never raises on any parsed rows; malformed
cells and controls degrade to empty-string fields. -/
theorem c6_no_raise_with_full_mapping (mapping : List (String × Nat))
    (rows : List RawRow) (h11 : 11 ≤ mapping.length) :
    ∃ recs, loadHtmlRows mapping rows = .ok recs := by
  induction rows with
  | nil => exact ⟨[], rfl⟩
  | cons row rest ih =>
    obtain ⟨o, ho⟩ := processRow_no_error mapping row h11
    obtain ⟨recs, hr⟩ := ih
    cases o with
    | some rd =>
      refine ⟨rd :: recs, ?_⟩
      simp only [loadHtmlRows]
      rw [ho, hr]
    | none =>
      refine ⟨recs, ?_⟩
      simp only [loadHtmlRows]
      rw [ho, hr]

/-- Claim C6 counterexample: extraction CAN raise on parseable markup — a
row carrying one cell and one checkbox, extracted under the three-column
addresses mapping, hits an uncaught `IndexError` in the positional
inclusion-filter reads `list(row_data.values())[9]`, aborting the whole
extraction. -/
theorem c6_counterexample_short_mapping :
    loadHtmlRows addrColumnMap
        [⟨[⟨"E", ""⟩, ⟨"A", ""⟩, ⟨"L", ""⟩],
          [⟨"checkbox", "isgamedone_1", some "1", false⟩]⟩] =
      .error "IndexError: list index out of range" := rfl

/-- Claim C6 witness: under the eleven-column assignments mapping the same
kind of control-bearing row extracts without raising. -/
theorem c6_no_raise_with_full_mapping_witness :
    11 ≤ assignColumnMap.length ∧
    ∃ recs, loadHtmlRows assignColumnMap
        [⟨[⟨"E", ""⟩, ⟨"A", ""⟩, ⟨"L", ""⟩],
          [⟨"checkbox", "isgamedone_1", some "1", false⟩]⟩] = .ok recs :=
  ⟨by decide, c6_no_raise_with_full_mapping assignColumnMap
    [⟨[⟨"E", ""⟩, ⟨"A", ""⟩, ⟨"L", ""⟩],
      [⟨"checkbox", "isgamedone_1", some "1", false⟩]⟩] (by decide)⟩
/-- A character is inert for the accent/case stages: it decomposes to
itself, is not a combining mark, and is already lowercase. -/
def goodChar (d : Char) : Prop :=
  decomp d = [d] ∧ isMn d = false ∧ lowerFr d = d

instance goodCharDecidable (d : Char) : Decidable (goodChar d) := by
  unfold goodChar
  infer_instance

/-- Every non-mark character produced by a table decomposition is, after
lowercasing, inert (the bases are ASCII letters). -/
theorem decompTable_good : ∀ p ∈ decompTable, ∀ c ∈ p.2,
    isMn c = false → goodChar (lowerFr c) := by decide

/-- Every lowercase image of a table-lowercasable character that has no
decomposition is inert. -/
theorem lowerTable_good : ∀ q ∈ lowerTable,
    decompTable.find? (fun p => p.1 = q.1) = none → goodChar q.2 := by decide

/-- Any non-mark character of any decomposition becomes inert after
lowercasing. -/
theorem goodChar_of_decomp (a c : Char) (hc : c ∈ decomp a)
    (hmn : isMn c = false) : goodChar (lowerFr c) := by
  unfold decomp at hc
  cases hf : decompTable.find? (fun p => p.1 = a) with
  | some p =>
    rw [hf] at hc
    simp only [Option.map_some', Option.getD_some] at hc
    exact decompTable_good p (List.mem_of_find?_eq_some hf) c hc hmn
  | none =>
    rw [hf] at hc
    simp only [Option.map_none', Option.getD_none, List.mem_singleton] at hc
    subst hc
    cases hg : lowerTable.find? (fun p => p.1 = c) with
    | some q =>
      have hq1 : q.1 = c := by
        have := List.find?_some hg
        simpa using this
      have hl : lowerFr c = q.2 := by simp [lowerFr, hg]
      rw [hl]
      exact lowerTable_good q (List.mem_of_find?_eq_some hg)
        (by rw [hq1]; exact hf)
    | none =>
      have hl : lowerFr c = c := by simp [lowerFr, hg]
      rw [hl]
      exact ⟨by simp [decomp, hf], hmn, hl⟩

/-- Characters surviving accent stripping are non-marks drawn from some
decomposition. -/
theorem stripAccents_chars (s : List Char) (c : Char)
    (hc : c ∈ stripAccents s) : isMn c = false ∧ ∃ a, c ∈ decomp a := by
  unfold stripAccents at hc
  obtain ⟨hcmem, hcf⟩ := List.mem_filter.mp hc
  obtain ⟨a, _, hca⟩ := List.mem_flatMap.mp hcmem
  exact ⟨by simpa [Bool.not_eq_true'] using hcf, a, hca⟩

/-- Every character of the lowercased accent-stripped string is inert. -/
theorem lowerAll_stripAccents_good (s : List Char) :
    ∀ c ∈ lowerAll (stripAccents s), goodChar c := by
  intro c hc
  obtain ⟨c', hc', he⟩ := List.mem_map.mp hc
  obtain ⟨hmn, a, ha⟩ := stripAccents_chars s c' hc'
  exact he ▸ goodChar_of_decomp a c' ha hmn

/-- Accent stripping fixes strings of self-decomposing non-marks. -/
theorem stripAccents_fix (L : List Char)
    (h : ∀ c ∈ L, decomp c = [c] ∧ isMn c = false) : stripAccents L = L := by
  induction L with
  | nil => rfl
  | cons c t ih =>
    have hc := h c (List.mem_cons_self c t)
    have ht : ∀ c ∈ t, decomp c = [c] ∧ isMn c = false := fun a ha =>
      h a (List.mem_cons_of_mem _ ha)
    show (((c :: t).flatMap decomp).filter (fun c => !isMn c)) = c :: t
    rw [List.flatMap_cons, hc.1, List.singleton_append, List.filter_cons]
    rw [if_pos (show (!isMn c) = true by rw [hc.2]; rfl)]
    exact congrArg (c :: ·) (ih ht)

/-- Lowercasing fixes strings of already-lowercase characters. -/
theorem lowerAll_fix (L : List Char) (h : ∀ c ∈ L, lowerFr c = c) :
    lowerAll L = L := by
  induction L with
  | nil => rfl
  | cons c t ih =>
    show lowerFr c :: lowerAll t = c :: t
    rw [h c (List.mem_cons_self c t),
      ih (fun a ha => h a (List.mem_cons_of_mem _ ha))]

/-- Scanning past a closing parenthesis only drops characters. -/
theorem takeClose_subset : ∀ (s r : List Char), takeClose s = some r →
    ∀ c ∈ r, c ∈ s := by
  intro s
  induction s with
  | nil => intro r hr; cases hr
  | cons d t ih =>
    intro r hr c hc
    unfold takeClose at hr
    by_cases hd : d = ')'
    · rw [if_pos hd] at hr
      cases hr
      exact List.mem_cons_of_mem _ hc
    · rw [if_neg hd] at hr
      by_cases hn : d = '\n'
      · rw [if_pos hn] at hr; cases hr
      · rw [if_neg hn] at hr
        exact List.mem_cons_of_mem _ (ih r hr c hc)

/-- Parenthesis removal only drops characters. -/
theorem removeParensGo_subset : ∀ (f : Nat) (s : List Char) (c : Char),
    c ∈ removeParensGo f s → c ∈ s := by
  intro f
  induction f with
  | zero =>
    intro s c hc
    cases s with
    | nil => cases hc
    | cons d t => exact hc
  | succ f ih =>
    intro s c hc
    cases s with
    | nil => cases hc
    | cons d t =>
      unfold removeParensGo at hc
      by_cases hd : d = '('
      · rw [if_pos hd] at hc
        cases htc : takeClose t with
        | some rest =>
          rw [htc] at hc
          exact List.mem_cons_of_mem _
            (takeClose_subset t rest htc c (ih rest c hc))
        | none =>
          rw [htc] at hc
          rcases List.mem_cons.mp hc with h | h
          · exact h ▸ List.mem_cons_self d t
          · exact List.mem_cons_of_mem _ (ih t c h)
      · rw [if_neg hd] at hc
        rcases List.mem_cons.mp hc with h | h
        · exact h ▸ List.mem_cons_self d t
        · exact List.mem_cons_of_mem _ (ih t c h)

/-- Parenthesis removal fixes strings without an opening parenthesis. -/
theorem removeParensGo_fix : ∀ (f : Nat) (s : List Char),
    (∀ c ∈ s, c ≠ '(') → removeParensGo f s = s := by
  intro f
  induction f with
  | zero =>
    intro s _
    cases s with
    | nil => rfl
    | cons d t => rfl
  | succ f ih =>
    intro s h
    cases s with
    | nil => rfl
    | cons d t =>
      unfold removeParensGo
      rw [if_neg (h d (List.mem_cons_self d t))]
      exact congrArg (d :: ·) (ih t (fun c hc => h c (List.mem_cons_of_mem _ hc)))

/-- Punctuation removal fixes strings of word and whitespace characters. -/
theorem removePunct_fix (L : List Char)
    (h : ∀ c ∈ L, isWordChar c = true ∨ isSpaceChar c = true) :
    removePunct L = L := by
  induction L with
  | nil => rfl
  | cons c t ih =>
    have hcond : (isWordChar c || isSpaceChar c) = true := by
      rcases h c (List.mem_cons_self c t) with hw | hs
      · simp [hw]
      · simp [hs]
    show (if isWordChar c || isSpaceChar c then c else ' ') :: removePunct t =
      c :: t
    rw [if_pos hcond, ih (fun a ha => h a (List.mem_cons_of_mem _ ha))]

/-- Characters of the punctuation-removal output: a space, or an original
word-or-space character. -/
theorem removePunct_chars (v : List Char) (c : Char) (hc : c ∈ removePunct v) :
    (isWordChar c = true ∨ isSpaceChar c = true) ∧ (c = ' ' ∨ c ∈ v) := by
  obtain ⟨a, ha, he⟩ := List.mem_map.mp hc
  by_cases hcond : isWordChar a || isSpaceChar a
  · rw [if_pos hcond] at he
    subst he
    exact ⟨by simpa using hcond, Or.inr ha⟩
  · rw [if_neg hcond] at he
    subst he
    exact ⟨Or.inr (by decide), Or.inl rfl⟩
/-- Characters of the words produced by the splitter come from the
accumulator or the input, and are never whitespace. -/
theorem wordsByGo_chars : ∀ (s cur : List Char),
    (∀ c ∈ cur, isSpaceChar c = false) →
    ∀ w ∈ wordsByGo cur s, ∀ c ∈ w,
      (c ∈ cur ∨ c ∈ s) ∧ isSpaceChar c = false := by
  intro s
  induction s with
  | nil =>
    intro cur hcur w hw c hc
    unfold wordsByGo at hw
    split at hw
    · cases hw
    · rcases List.mem_singleton.mp hw with rfl
      have hcc : c ∈ cur := List.mem_reverse.mp hc
      exact ⟨Or.inl hcc, hcur c hcc⟩
  | cons d r ih =>
    intro cur hcur w hw c hc
    unfold wordsByGo at hw
    by_cases hd : isSpaceChar d = true
    · rw [if_pos hd] at hw
      by_cases hce : cur.isEmpty = true
      · rw [if_pos hce] at hw
        obtain ⟨hor, hns⟩ := ih [] (by intro x hx; cases hx) w hw c hc
        rcases hor with h | h
        · cases h
        · exact ⟨Or.inr (List.mem_cons_of_mem _ h), hns⟩
      · rw [if_neg hce] at hw
        rcases List.mem_cons.mp hw with rfl | hw'
        · have hcc : c ∈ cur := List.mem_reverse.mp hc
          exact ⟨Or.inl hcc, hcur c hcc⟩
        · obtain ⟨hor, hns⟩ := ih [] (by intro x hx; cases hx) w hw' c hc
          rcases hor with h | h
          · cases h
          · exact ⟨Or.inr (List.mem_cons_of_mem _ h), hns⟩
    · rw [if_neg hd] at hw
      have hdns : isSpaceChar d = false := by
        cases hdd : isSpaceChar d
        · rfl
        · exact absurd hdd hd
      have hcur' : ∀ x ∈ d :: cur, isSpaceChar x = false := by
        intro x hx
        rcases List.mem_cons.mp hx with rfl | hx'
        · exact hdns
        · exact hcur x hx'
      obtain ⟨hor, hns⟩ := ih (d :: cur) hcur' w hw c hc
      rcases hor with h | h
      · rcases List.mem_cons.mp h with h1 | h'
        · exact ⟨Or.inr (by rw [h1]; exact List.mem_cons_self _ _), hns⟩
        · exact ⟨Or.inl h', hns⟩
      · exact ⟨Or.inr (List.mem_cons_of_mem _ h), hns⟩

/-- The splitter never produces an empty word. -/
theorem wordsByGo_words_ne_nil : ∀ (s cur : List Char),
    ∀ w ∈ wordsByGo cur s, w ≠ [] := by
  intro s
  induction s with
  | nil =>
    intro cur w hw
    unfold wordsByGo at hw
    by_cases hce : cur.isEmpty = true
    · rw [if_pos hce] at hw; cases hw
    · rw [if_neg hce] at hw
      rcases List.mem_singleton.mp hw with rfl
      intro hrev
      exact hce (List.isEmpty_iff.mpr (by
        rw [← List.reverse_reverse cur, hrev]; rfl))
  | cons d r ih =>
    intro cur w hw
    unfold wordsByGo at hw
    by_cases hd : isSpaceChar d = true
    · rw [if_pos hd] at hw
      by_cases hce : cur.isEmpty = true
      · rw [if_pos hce] at hw
        exact ih [] w hw
      · rw [if_neg hce] at hw
        rcases List.mem_cons.mp hw with rfl | hw'
        · intro hrev
          exact hce (List.isEmpty_iff.mpr (by
            rw [← List.reverse_reverse cur, hrev]; rfl))
        · exact ih [] w hw'
    · rw [if_neg hd] at hw
      exact ih (d :: cur) w hw

/-- Scanning a whitespace-free block just accumulates it. -/
theorem wordsByGo_through_word : ∀ w : List Char,
    (∀ c ∈ w, isSpaceChar c = false) → ∀ cur s : List Char,
      wordsByGo cur (w ++ s) = wordsByGo (w.reverse ++ cur) s := by
  intro w
  induction w with
  | nil => intro _ cur s; rfl
  | cons c t ih =>
    intro h cur s
    have hc : isSpaceChar c = false := h c (List.mem_cons_self c t)
    show wordsByGo cur (c :: (t ++ s)) = wordsByGo ((c :: t).reverse ++ cur) s
    conv_lhs => rw [wordsByGo]
    rw [if_neg (show ¬(isSpaceChar c = true) by rw [hc]; exact
      Bool.false_ne_true)]
    rw [ih (fun a ha => h a (List.mem_cons_of_mem _ ha)) (c :: cur) s,
      List.reverse_cons, List.append_assoc, List.singleton_append]

/-- Splitting is a retraction of joining, on lists of non-empty
whitespace-free words. -/
theorem splitWords_joinWords : ∀ ws : List (List Char),
    (∀ w ∈ ws, w ≠ []) → (∀ w ∈ ws, ∀ c ∈ w, isSpaceChar c = false) →
    splitWords (joinWords ws) = ws := by
  intro ws
  induction ws with
  | nil => intro _ _; rfl
  | cons w ws ih =>
    intro hne hns
    have hwrev : ¬(w.reverse.isEmpty = true) := by
      intro hh
      exact hne w (List.mem_cons_self w ws) (by
        rw [← List.reverse_reverse w, List.isEmpty_iff.mp hh]; rfl)
    cases ws with
    | nil =>
      show splitWords (joinWords [w]) = [w]
      have hjw : joinWords [w] = w := rfl
      rw [hjw]
      show wordsByGo [] w = [w]
      calc wordsByGo [] w
          = wordsByGo [] (w ++ []) := by rw [List.append_nil]
        _ = wordsByGo (w.reverse ++ []) [] :=
            wordsByGo_through_word w (hns w (List.mem_cons_self w [])) [] []
        _ = wordsByGo w.reverse [] := by rw [List.append_nil]
        _ = [w] := by
            unfold wordsByGo
            rw [if_neg hwrev, List.reverse_reverse]
    | cons w2 ws2 =>
      show splitWords (joinWords (w :: w2 :: ws2)) = w :: w2 :: ws2
      have hj : joinWords (w :: w2 :: ws2) =
          w ++ ' ' :: joinWords (w2 :: ws2) := rfl
      rw [hj]
      show wordsByGo [] (w ++ ' ' :: joinWords (w2 :: ws2)) = _
      rw [wordsByGo_through_word w (hns w (List.mem_cons_self w _)) []
        (' ' :: joinWords (w2 :: ws2)), List.append_nil]
      show wordsByGo w.reverse (' ' :: joinWords (w2 :: ws2)) = _
      unfold wordsByGo
      rw [if_pos (show isSpaceChar ' ' = true by decide), if_neg hwrev,
        List.reverse_reverse]
      exact congrArg (w :: ·)
        (ih (fun a ha => hne a (List.mem_cons_of_mem _ ha))
          (fun a ha => hns a (List.mem_cons_of_mem _ ha)))

/-- Characters of a join are spaces or characters of the words. -/
theorem joinWords_chars : ∀ (ws : List (List Char)) (c : Char),
    c ∈ joinWords ws → c = ' ' ∨ ∃ w ∈ ws, c ∈ w := by
  intro ws
  induction ws with
  | nil => intro c hc; cases hc
  | cons w ws ih =>
    intro c hc
    cases ws with
    | nil => exact Or.inr ⟨w, List.mem_cons_self w [], hc⟩
    | cons w2 ws2 =>
      rw [show joinWords (w :: w2 :: ws2) =
        w ++ ' ' :: joinWords (w2 :: ws2) from rfl] at hc
      rcases List.mem_append.mp hc with h | h
      · exact Or.inr ⟨w, List.mem_cons_self w _, h⟩
      · rcases List.mem_cons.mp h with rfl | h'
        · exact Or.inl rfl
        · rcases ih c h' with h'' | ⟨w', hw', hcw⟩
          · exact Or.inl h''
          · exact Or.inr ⟨w', List.mem_cons_of_mem _ hw', hcw⟩

/-- Characters of a collapsed string: the single space separator, or an
original non-whitespace character. -/
theorem collapseSpaces_chars (s : List Char) (c : Char)
    (hc : c ∈ collapseSpaces s) :
    c = ' ' ∨ (c ∈ s ∧ isSpaceChar c = false) := by
  rcases joinWords_chars _ c hc with h | ⟨w, hw, hcw⟩
  · exact Or.inl h
  · obtain ⟨hor, hns⟩ := wordsByGo_chars s [] (by intro x hx; cases hx) w hw
      c hcw
    rcases hor with h | h
    · cases h
    · exact Or.inr ⟨h, hns⟩

/-- Whitespace collapsing is idempotent. -/
theorem collapseSpaces_idem (s : List Char) :
    collapseSpaces (collapseSpaces s) = collapseSpaces s := by
  show joinWords (splitWords (joinWords (splitWords s))) = _
  rw [splitWords_joinWords (splitWords s)
    (fun w hw => wordsByGo_words_ne_nil s [] w hw)
    (fun w hw c hc =>
      (wordsByGo_chars s [] (by intro x hx; cases hx) w hw c hc).2)]
  rfl
/-- The tail of the normalization pipeline (accent stripping, lowercasing,
parenthesis removal, punctuation removal, whitespace collapsing) is
idempotent: its output consists of inert word characters and single
spaces, which every tail stage fixes. -/
theorem tail_pipeline_fix (z : List Char) :
    collapseSpaces (removePunct (removeParens (lowerAll (stripAccents
      (collapseSpaces (removePunct (removeParens (lowerAll
        (stripAccents z))))))))) =
    collapseSpaces (removePunct (removeParens (lowerAll (stripAccents z)))) := by
  have hv : ∀ c ∈ removeParens (lowerAll (stripAccents z)), goodChar c :=
    fun c hc => lowerAll_stripAccents_good z c (removeParensGo_subset _ _ c hc)
  set L := collapseSpaces (removePunct (removeParens (lowerAll
    (stripAccents z)))) with hLdef
  have hL : ∀ c ∈ L, c = ' ' ∨
      (c ∈ removeParens (lowerAll (stripAccents z)) ∧ isWordChar c = true) := by
    intro c hc
    rcases collapseSpaces_chars _ c hc with h | ⟨hmem, hns⟩
    · exact Or.inl h
    · obtain ⟨hws, hor⟩ := removePunct_chars _ c hmem
      rcases hor with h' | h'
      · rw [h'] at hns
        exact absurd hns (by decide)
      · rcases hws with hw | hs
        · exact Or.inr ⟨h', hw⟩
        · rw [hs] at hns
          cases hns
  have hgood : ∀ c ∈ L, goodChar c := by
    intro c hc
    rcases hL c hc with h | ⟨hmem, _⟩
    · rw [h]; decide
    · exact hv c hmem
  have hword : ∀ c ∈ L, isWordChar c = true ∨ isSpaceChar c = true := by
    intro c hc
    rcases hL c hc with h | ⟨_, hw⟩
    · exact Or.inr (by rw [h]; decide)
    · exact Or.inl hw
  have hpar : ∀ c ∈ L, c ≠ '(' := by
    intro c hc
    rcases hL c hc with h | ⟨_, hw⟩
    · rw [h]; decide
    · intro he
      rw [he] at hw
      exact absurd hw (by decide)
  rw [stripAccents_fix L (fun c hc => ⟨(hgood c hc).1, (hgood c hc).2.1⟩),
    lowerAll_fix L (fun c hc => (hgood c hc).2.2),
    show removeParens L = L from removeParensGo_fix L.length L hpar,
    removePunct_fix L hword, hLdef]
  exact collapseSpaces_idem _

/-- Unfolding of `normalize` on a non-empty string. -/
theorem normalize_eq (s : String) (hs : s ≠ "") :
    normalize s = String.mk (normChars s.data) := by
  unfold normalize
  rw [if_neg hs]

/-- Idempotence of the character pipeline, given that abbreviation
expansion and the special cases fix its output. -/
theorem normChars_idem_under (u : List Char)
    (h1 : expandAbbreviations (normChars u) = normChars u)
    (h2 : applySpecialCases (normChars u) = normChars u) :
    normChars (normChars u) = normChars u := by
  have hstep : normChars (normChars u) =
      collapseSpaces (removePunct (removeParens (lowerAll (stripAccents
        (applySpecialCases (expandAbbreviations (normChars u))))))) := rfl
  rw [hstep, h1, h2]
  have hbase : normChars u = collapseSpaces (removePunct (removeParens
      (lowerAll (stripAccents (applySpecialCases
        (expandAbbreviations u)))))) := rfl
  rw [hbase]
  exact tail_pipeline_fix (applySpecialCases (expandAbbreviations u))

/-- Claim C5 counterexample: `normalize` is not idempotent — removing the
parenthesized group in `"s(a)t"` creates the standalone token `st`, which a
second pass expands to `saint`. -/
theorem c5_counterexample_not_idempotent :
    normalize "s(a)t" = "st" ∧ normalize (normalize "s(a)t") = "saint" ∧
      normalize (normalize "s(a)t") ≠ normalize "s(a)t" :=
  ⟨by decide, by decide, by decide⟩

/-- Claim C5 (amended: idempotence holds for exactly those strings whose
normalized form is left unchanged by another round of abbreviation
expansion and special-case substitution — the counterexample shows the
unrestricted claim fails): for every such string,
`normalize (normalize x) = normalize x`. -/
theorem c5_normalize_idempotent_amended (x : String)
    (h1 : expandAbbreviations (normalize x).data = (normalize x).data)
    (h2 : applySpecialCases (normalize x).data = (normalize x).data) :
    normalize (normalize x) = normalize x := by
  by_cases hx : normalize x = ""
  · rw [hx]
    decide
  · have hx0 : x ≠ "" := fun h => hx (by rw [h]; decide)
    have hdata : (normalize x).data = normChars x.data := by
      rw [normalize_eq x hx0]
    have h1' : expandAbbreviations (normChars x.data) = normChars x.data := by
      rw [← hdata]; exact h1
    have h2' : applySpecialCases (normChars x.data) = normChars x.data := by
      rw [← hdata]; exact h2
    rw [normalize_eq (normalize x) hx, hdata, normalize_eq x hx0]
    exact congrArg String.mk (normChars_idem_under x.data h1' h2')

/-- Claim C5 witness: the school name `École Secondaire Saint-Jean`
normalizes to a fixed point of expansion, so normalizing twice equals
normalizing once. -/
theorem c5_normalize_idempotent_amended_witness :
    (expandAbbreviations (normalize "École Secondaire Saint-Jean").data =
        (normalize "École Secondaire Saint-Jean").data ∧
      applySpecialCases (normalize "École Secondaire Saint-Jean").data =
        (normalize "École Secondaire Saint-Jean").data) ∧
    normalize (normalize "École Secondaire Saint-Jean") =
      normalize "École Secondaire Saint-Jean" :=
  ⟨⟨by decide, by decide⟩,
    c5_normalize_idempotent_amended "École Secondaire Saint-Jean"
      (by decide) (by decide)⟩

end BBCal
